import Mathlib

/-
Verification of the smolgrad reverse-mode automatic-differentiation engine
(`src/engine.rs`) and its neural-network consumer (`src/nn.rs`).

The Rust code stores one graph vertex per `Value`, with shared mutable cells
for `data` and `grad`.  We embed the computation graph as an arena: a list of
`Node` records addressed by position.  Every operator appends a fresh node
whose operand fields hold the (strictly smaller) indices of already-existing
nodes, which is exactly the sharing discipline of the `Rc<Cell<f32>>`
implementation: a gradient update through any consumer is visible to every
holder of the index.  `f32` arithmetic is modelled exactly over `ℚ`;
`powf` exponents are modelled as integers (every exponent appearing in the
code and its derived operators is integral, where `powf` agrees with zpow).
-/

attribute [local semireducible] Rat.add Rat.mul Rat.inv Rat.sub

namespace Smolgrad

/-- Operation tag of a graph node, mirroring `enum Ops` together with the
`prev` operand vector of `Inner` in `src/engine.rs`.  Operands are arena
indices; `pow` additionally stores its constant exponent (captured by the
Rust closure, not a graph node). -/
inductive Op where
  | leaf : Op
  | add : Nat → Nat → Op
  | mul : Nat → Nat → Op
  | pow : Nat → Int → Op
  | relu : Nat → Op
deriving DecidableEq, Repr

/-- One graph node (`Inner` in `src/engine.rs`): forward value `data`,
gradient accumulator `grad`, and the operation that produced it.  The
per-node backward closure of the Rust code is recovered from `op` by
`runRule` below (the closure is determined at construction by the operation
and its captured operand cells). -/
structure Node where
  data : ℚ
  grad : ℚ
  op : Op
deriving DecidableEq, Repr

instance : Inhabited Node := ⟨⟨0, 0, .leaf⟩⟩

/-- The computation graph: an arena of nodes, index = identity.  Node
identity in the Rust code is pointer identity; two nodes with equal data are
distinct arena entries, never merged. -/
abbrev Graph := List Node

/-- The node stored at index `i` (a default leaf outside the arena). -/
def nodeAt (g : Graph) (i : Nat) : Node := (g[i]?).getD default

/-- Forward value of node `i` (`Value::get_data`). -/
def dataOf (g : Graph) (i : Nat) : ℚ := (nodeAt g i).data

/-- Gradient accumulator of node `i` (`Value::get_grad`). -/
def gradOf (g : Graph) (i : Nat) : ℚ := (nodeAt g i).grad

/-- Operation tag of node `i`. -/
def opOf (g : Graph) (i : Nat) : Op := (nodeAt g i).op

/-- Operand list of an operation, in the order of the Rust `prev` vector. -/
def prevOf : Op → List Nat
  | .leaf => []
  | .add a b => [a, b]
  | .mul a b => [a, b]
  | .pow a _ => [a]
  | .relu a => [a]

/-- Operand indices of node `i` (`Inner.prev`). -/
def prevIds (g : Graph) (i : Nat) : List Nat := prevOf (opOf g i)

/-- Replace the gradient cell of node `i` by `f` of its current value;
mutation through a shared cell, a no-op outside the arena. -/
def updGrad (g : Graph) (i : Nat) (f : ℚ → ℚ) : Graph :=
  g.set i { nodeAt g i with grad := f (nodeAt g i).grad }

/-- `Value::set_grad`: overwrite the gradient of node `i`. -/
def setGrad (g : Graph) (i : Nat) (q : ℚ) : Graph := updGrad g i (fun _ => q)

/-- Accumulate `q` into the gradient of node `i` (the `grad.set(grad.get() + …)`
pattern of every backward closure). -/
def addGrad (g : Graph) (i : Nat) (q : ℚ) : Graph := updGrad g i (fun x => x + q)

/-- `Value::new`: append a leaf holding `q`, gradient 0, no operands. -/
def mkLeaf (g : Graph) (q : ℚ) : Graph × Nat :=
  (g ++ [⟨q, 0, .leaf⟩], g.length)

/-- `Add for &Value`: append a node with data `a.data + b.data`, operands
`[a, b]`, gradient 0. -/
def addOp (g : Graph) (a b : Nat) : Graph × Nat :=
  (g ++ [⟨dataOf g a + dataOf g b, 0, .add a b⟩], g.length)

/-- `Mul for &Value`: append a node with data `a.data * b.data`. -/
def mulOp (g : Graph) (a b : Nat) : Graph × Nat :=
  (g ++ [⟨dataOf g a * dataOf g b, 0, .mul a b⟩], g.length)

/-- `Value::pow`: append a node with data `a.data ^ k`; the exponent is a
plain constant stored in the tag, never a graph node. -/
def powOp (g : Graph) (a : Nat) (k : Int) : Graph × Nat :=
  (g ++ [⟨dataOf g a ^ k, 0, .pow a k⟩], g.length)

/-- `Value::relu`: append a node whose data is `a.data` when `a.data ≥ 0`
and `0` otherwise (the two branches of the Rust `if`). -/
def reluOp (g : Graph) (a : Nat) : Graph × Nat :=
  (g ++ [⟨if 0 ≤ dataOf g a then dataOf g a else 0, 0, .relu a⟩], g.length)

/-- `Mul<f32>`: wrap the float as a fresh leaf, then node-node multiply. -/
def mulF (g : Graph) (a : Nat) (x : ℚ) : Graph × Nat :=
  let p := mkLeaf g x
  mulOp p.1 a p.2

/-- `Add<f32> for Value`: wrap the float as a fresh leaf, then node-node add. -/
def addF (g : Graph) (a : Nat) (x : ℚ) : Graph × Nat :=
  let p := mkLeaf g x
  addOp p.1 a p.2

/-- `Neg for &Value`: `self * -1.0`. -/
def negOp (g : Graph) (a : Nat) : Graph × Nat := mulF g a (-1)

/-- `Sub for &Value`: `self + (-rhs)`. -/
def subOp (g : Graph) (a b : Nat) : Graph × Nat :=
  let p := negOp g b
  addOp p.1 a p.2

/-- `Div for &Value`: `self * rhs.pow(-1.0)`. -/
def divOp (g : Graph) (a b : Nat) : Graph × Nat :=
  let p := powOp g b (-1)
  mulOp p.1 a p.2

/-- `Div<f32> for &Value`: `self * (1.0 / rhs)`. -/
def divF (g : Graph) (a : Nat) (x : ℚ) : Graph × Nat := mulF g a (1 / x)

/-- `Div<Value> for f32`: `rhs.pow(-1.0) * self` (the `Mul<f32>` instance
wraps `self` as a fresh leaf on the right). -/
def fDiv (x : ℚ) (g : Graph) (a : Nat) : Graph × Nat :=
  let p := powOp g a (-1)
  mulF p.1 p.2 x

/-- Execute the backward closure of node `i` (dispatch on its operation, the
rules of `Add`, `Mul`, `Value::pow` and `Value::relu` in `src/engine.rs`).
Every rule only accumulates into its operands' gradient cells. -/
def runRule (g : Graph) (i : Nat) : Graph :=
  match opOf g i with
  | .leaf => g
  | .add a b =>
      let go := gradOf g i
      addGrad (addGrad g a go) b go
  | .mul a b =>
      let go := gradOf g i
      addGrad (addGrad g a (dataOf g b * go)) b (dataOf g a * go)
  | .pow a k => addGrad g a ((k : ℚ) * dataOf g a ^ (k - 1) * gradOf g i)
  | .relu a => addGrad g a ((if 0 < dataOf g i then 1 else 0) * gradOf g i)

/-- The recursive `build_topo` of `Value::backward`: depth-first traversal
with a visited set, appending a node after all its operands (postorder).
State is `(visited, topo)`.  The Rust recursion is modelled with explicit
fuel; on well-formed arenas (operand indices strictly below the node) fuel
`i + 1` is exhaustive, see `topoAux_fuel` below. -/
def topoAux (g : Graph) : Nat → Nat → List Nat × List Nat → List Nat × List Nat
  | 0, _, st => st
  | fuel + 1, i, st =>
      if i ∈ st.1 then st
      else
        let st1 := (prevIds g i).foldl (fun s c => topoAux g fuel c s) (i :: st.1, st.2)
        (st1.1, st1.2 ++ [i])

/-- One complete `build_topo` call on node `i` with sufficient fuel. -/
def tstep (g : Graph) (i : Nat) (st : List Nat × List Nat) : List Nat × List Nat :=
  topoAux g (i + 1) i st

/-- The topological order produced by `build_topo(terminal, {}, [])`. -/
def buildTopo (g : Graph) (t : Nat) : List Nat := (tstep g t ([], [])).2

/-- `Value::backward`: build the postorder, seed the terminal's gradient
to 1, then run every visited node's backward rule in reverse order. -/
def backward (g : Graph) (t : Nat) : Graph :=
  (buildTopo g t).reverse.foldl runRule (setGrad g t 1)

/-- Local partial derivative of node `v` with respect to its `p`-th operand,
exactly the factor each backward rule multiplies into the upstream gradient. -/
def lgrad (g : Graph) (v p : Nat) : ℚ :=
  match opOf g v with
  | .leaf => 0
  | .add _ _ => 1
  | .mul a b => if p = 0 then dataOf g b else dataOf g a
  | .pow a k => (k : ℚ) * dataOf g a ^ (k - 1)
  | .relu _ => if 0 < dataOf g v then 1 else 0

/-- Total local contribution factor of consumer `v` into node `x`: the sum of
`lgrad` over every operand position of `v` holding `x` (a node may use the
same operand twice). -/
def localSum (g : Graph) (v x : Nat) : ℚ :=
  ((prevIds g v).enum.map (fun pc => if pc.2 = x then lgrad g v pc.1 else 0)).sum

/-- All paths from `t` down to `x` along operand edges, each path recorded as
its list of steps `(consumer, operand position)` in traversal order.  Fuel
bounds the path length; indices strictly decrease along a path, so fuel
`t + 1` enumerates every path (see `pathsTo_stable`). -/
def pathsTo (g : Graph) : Nat → Nat → Nat → List (List (Nat × Nat))
  | 0, t, x => if x = t then [[]] else []
  | fuel + 1, t, x =>
      (if x = t then [[]] else []) ++
        (List.range g.length).flatMap (fun v =>
          (prevIds g v).enum.flatMap (fun pc =>
            if pc.2 = x then (pathsTo g fuel t v).map (fun s => s ++ [(v, pc.1)]) else []))

/-- Weight of a path: the product of the local partial derivatives along it. -/
def pweight (g : Graph) (s : List (Nat × Nat)) : ℚ :=
  (s.map (fun vp => lgrad g vp.1 vp.2)).prod

/-- Chain-rule value: the sum, over every path from terminal `t` to node `x`,
of the product of the local partial derivatives along the path. -/
def pathSum (g : Graph) (t x : Nat) : ℚ :=
  ((pathsTo g (t + 1) t x).map (pweight g)).sum

/-- Reachability from the terminal along operand edges (the nodes visited by
`build_topo`). -/
inductive Reach (g : Graph) (t : Nat) : Nat → Prop where
  | refl : Reach g t t
  | step : ∀ {v c}, Reach g t v → c ∈ prevIds g v → Reach g t c

/-- Well-formed arena: every operand index is strictly below its node's
index.  Every graph produced by the constructors satisfies this; it is the
acyclicity invariant of the Rust representation (an operation only references
already-existing nodes). -/
def WF (g : Graph) : Prop := ∀ i, i < g.length → ∀ c ∈ prevIds g i, c < i

/-- All gradient accumulators are zero (freshly constructed graph). -/
def ZeroGrads (g : Graph) : Prop := ∀ i, i < g.length → gradOf g i = 0

instance decidableWF (g : Graph) : Decidable (WF g) := by
  unfold WF
  infer_instance

instance decidableZeroGrads (g : Graph) : Decidable (ZeroGrads g) := by
  unfold ZeroGrads
  infer_instance

/-- Graphs built from the public constructors alone: leaves and operators
applied to existing nodes.  This is the "acyclic computation graph built from
the operators" of the specification. -/
inductive Built : Graph → Prop where
  | nil : Built []
  | leaf : ∀ {g} (q : ℚ), Built g → Built (mkLeaf g q).1
  | add : ∀ {g} (a b : Nat), Built g → a < g.length → b < g.length → Built (addOp g a b).1
  | mul : ∀ {g} (a b : Nat), Built g → a < g.length → b < g.length → Built (mulOp g a b).1
  | pow : ∀ {g} (a : Nat) (k : Int), Built g → a < g.length → Built (powOp g a k).1
  | relu : ∀ {g} (a : Nat), Built g → a < g.length → Built (reluOp g a).1

/-! ### Basic facts about the mutable cells -/

theorem gradOf_oob (g : Graph) (i : Nat) (h : g.length ≤ i) : gradOf g i = 0 := by
  unfold gradOf nodeAt
  rw [List.getElem?_eq_none h]
  rfl

theorem length_updGrad (g : Graph) (i : Nat) (f : ℚ → ℚ) :
    (updGrad g i f).length = g.length := List.length_set g i _

theorem gradOf_updGrad (g : Graph) (i : Nat) (f : ℚ → ℚ) (j : Nat) :
    gradOf (updGrad g i f) j =
      if j = i ∧ j < g.length then f (gradOf g j) else gradOf g j := by
  unfold gradOf updGrad nodeAt
  rw [List.getElem?_set]
  by_cases h : i = j
  · subst h
    by_cases hl : i < g.length
    · simp [hl]
    · rw [List.getElem?_eq_none (le_of_not_lt hl)]
      simp [hl]
  · have h' : j ≠ i := fun hh => h hh.symm
    simp [h, h']

theorem dataOf_updGrad (g : Graph) (i : Nat) (f : ℚ → ℚ) (j : Nat) :
    dataOf (updGrad g i f) j = dataOf g j := by
  unfold dataOf updGrad nodeAt
  rw [List.getElem?_set]
  by_cases h : i = j
  · subst h
    by_cases hl : i < g.length
    · simp [hl]
    · rw [List.getElem?_eq_none (le_of_not_lt hl)]
      simp [hl]
  · simp [h]

theorem opOf_updGrad (g : Graph) (i : Nat) (f : ℚ → ℚ) (j : Nat) :
    opOf (updGrad g i f) j = opOf g j := by
  unfold opOf updGrad nodeAt
  rw [List.getElem?_set]
  by_cases h : i = j
  · subst h
    by_cases hl : i < g.length
    · simp [hl]
    · rw [List.getElem?_eq_none (le_of_not_lt hl)]
      simp [hl]
  · simp [h]

theorem prevIds_updGrad (g : Graph) (i : Nat) (f : ℚ → ℚ) (j : Nat) :
    prevIds (updGrad g i f) j = prevIds g j := by
  unfold prevIds
  rw [opOf_updGrad]

theorem gradOf_setGrad (g : Graph) (i : Nat) (q : ℚ) (j : Nat) :
    gradOf (setGrad g i q) j = if j = i ∧ j < g.length then q else gradOf g j :=
  gradOf_updGrad g i _ j

theorem gradOf_addGrad (g : Graph) (i : Nat) (q : ℚ) (j : Nat) :
    gradOf (addGrad g i q) j =
      if j = i ∧ j < g.length then gradOf g j + q else gradOf g j :=
  gradOf_updGrad g i _ j

theorem length_addGrad (g : Graph) (i : Nat) (q : ℚ) :
    (addGrad g i q).length = g.length := length_updGrad g i _

theorem length_setGrad (g : Graph) (i : Nat) (q : ℚ) :
    (setGrad g i q).length = g.length := length_updGrad g i _

/-! ### The backward rules touch only operand gradients -/

theorem length_runRule (g : Graph) (i : Nat) : (runRule g i).length = g.length := by
  unfold runRule
  cases opOf g i <;> simp [length_addGrad]

theorem dataOf_runRule (g : Graph) (i : Nat) (j : Nat) :
    dataOf (runRule g i) j = dataOf g j := by
  unfold runRule
  cases opOf g i <;> simp [addGrad, dataOf_updGrad]

theorem opOf_runRule (g : Graph) (i : Nat) (j : Nat) :
    opOf (runRule g i) j = opOf g j := by
  unfold runRule
  cases opOf g i <;> simp [addGrad, opOf_updGrad]

/-- What one backward rule does to every gradient cell: node `x` gains the
local partial derivative summed over the operand positions of `v` holding
`x`, times the gradient of `v` read at rule time; nothing else changes. -/
theorem runRule_grad (g : Graph) (v : Nat) (hv : v < g.length)
    (hp : ∀ c ∈ prevIds g v, c < v) (x : Nat) :
    gradOf (runRule g v) x = gradOf g x + localSum g v x * gradOf g v := by
  unfold runRule localSum lgrad
  cases hop : opOf g v with
  | leaf => simp [prevIds, hop, prevOf]
  | add a b =>
    have ha : a < v := hp a (by simp [prevIds, hop, prevOf])
    have hb : b < v := hp b (by simp [prevIds, hop, prevOf])
    have ha' : a < g.length := lt_trans ha hv
    have hb' : b < g.length := lt_trans hb hv
    have hlen : (addGrad g a (gradOf g v)).length = g.length := length_addGrad ..
    simp only [prevIds, hop, prevOf]
    rw [gradOf_addGrad, hlen, gradOf_addGrad]
    rcases eq_or_ne a b with hab | hab
    · subst hab
      by_cases hxa : x = a <;> simp [hxa, ha', List.enum, eq_comm] <;> ring
    · by_cases hxa : x = a <;> by_cases hxb : x = b
      · exact absurd (hxa.symm.trans hxb) hab
      all_goals simp [hxa, hxb, hab, ha', hb', List.enum, eq_comm] <;> ring
  | mul a b =>
    have ha : a < v := hp a (by simp [prevIds, hop, prevOf])
    have hb : b < v := hp b (by simp [prevIds, hop, prevOf])
    have ha' : a < g.length := lt_trans ha hv
    have hb' : b < g.length := lt_trans hb hv
    have hlen : (addGrad g a (dataOf g b * gradOf g v)).length = g.length := length_addGrad ..
    simp only [prevIds, hop, prevOf]
    rw [gradOf_addGrad, hlen, gradOf_addGrad]
    rcases eq_or_ne a b with hab | hab
    · subst hab
      by_cases hxa : x = a <;> simp [hxa, ha', List.enum, eq_comm] <;> ring
    · by_cases hxa : x = a <;> by_cases hxb : x = b
      · exact absurd (hxa.symm.trans hxb) hab
      all_goals simp [hxa, hxb, hab, ha', hb', List.enum, eq_comm] <;> ring
  | pow a k =>
    have ha : a < v := hp a (by simp [prevIds, hop, prevOf])
    have ha' : a < g.length := lt_trans ha hv
    simp only [prevIds, hop, prevOf]
    rw [gradOf_addGrad]
    by_cases hxa : x = a <;> simp [hxa, ha', List.enum, eq_comm] <;> ring
  | relu a =>
    have ha : a < v := hp a (by simp [prevIds, hop, prevOf])
    have ha' : a < g.length := lt_trans ha hv
    simp only [prevIds, hop, prevOf]
    rw [gradOf_addGrad]
    by_cases hxa : x = a <;> simp [hxa, ha', List.enum, eq_comm] <;> ring

/-! ### Reading the freshly appended node of a constructor -/

theorem nodeAt_append_new (g : Graph) (n : Node) : nodeAt (g ++ [n]) g.length = n := by
  unfold nodeAt
  rw [List.getElem?_concat_length]
  rfl

theorem nodeAt_append_old (g : Graph) (l : List Node) (i : Nat) (h : i < g.length) :
    nodeAt (g ++ l) i = nodeAt g i := by
  unfold nodeAt
  rw [List.getElem?_append]
  simp [h]

theorem dataOf_append_old (g : Graph) (l : List Node) (i : Nat) (h : i < g.length) :
    dataOf (g ++ l) i = dataOf g i := by
  unfold dataOf
  rw [nodeAt_append_old g l i h]

theorem gradOf_append_old (g : Graph) (l : List Node) (i : Nat) (h : i < g.length) :
    gradOf (g ++ l) i = gradOf g i := by
  unfold gradOf
  rw [nodeAt_append_old g l i h]

theorem opOf_append_old (g : Graph) (l : List Node) (i : Nat) (h : i < g.length) :
    opOf (g ++ l) i = opOf g i := by
  unfold opOf
  rw [nodeAt_append_old g l i h]

theorem prevIds_append_old (g : Graph) (l : List Node) (i : Nat) (h : i < g.length) :
    prevIds (g ++ l) i = prevIds g i := by
  unfold prevIds
  rw [opOf_append_old g l i h]

/-! ### Claim theorems for the single-operand operators -/

/-- C4: `power(u,k)` produces a node with data `u.data ^ k` whose only operand
is `u` (the exponent is a constant, not a graph node, so no gradient can flow
into the exponent position), and whose backward rule — run later on any state
`h` of the graph — adds `k * u.data^(k-1) * out.gradient` into `u`'s gradient
and changes no other gradient cell. -/
theorem claim_C4_pow (g : Graph) (u : Nat) (k : Int) (h : Graph) (i : Nat)
    (hi : i < h.length) (hop : opOf h i = .pow u k) (hu : u < i) :
    dataOf (powOp g u k).1 (powOp g u k).2 = dataOf g u ^ k ∧
    prevIds (powOp g u k).1 (powOp g u k).2 = [u] ∧
    gradOf (runRule h i) u = gradOf h u + (k : ℚ) * dataOf h u ^ (k - 1) * gradOf h i ∧
    (∀ j, j ≠ u → gradOf (runRule h i) j = gradOf h j) := by
  have hu' : u < h.length := lt_trans hu hi
  refine ⟨?_, ?_, ?_, ?_⟩
  · unfold powOp dataOf
    rw [nodeAt_append_new]
  · unfold powOp prevIds opOf
    rw [nodeAt_append_new]
    rfl
  · unfold runRule
    rw [hop, gradOf_addGrad]
    simp [hu']
  · intro j hj
    unfold runRule
    rw [hop, gradOf_addGrad]
    simp [hj]

/-- C4 witness: a concrete instance, `u = leaf 2`, `k = 3`. -/
theorem claim_C4_pow_witness :
    ((1 : Nat) < ((powOp (mkLeaf [] 2).1 0 3).1).length ∧
      opOf (powOp (mkLeaf [] 2).1 0 3).1 1 = .pow 0 3 ∧ (0 : Nat) < 1) ∧
    (dataOf (powOp (mkLeaf [] 2).1 0 3).1 (powOp (mkLeaf [] 2).1 0 3).2 =
        dataOf (mkLeaf [] 2).1 0 ^ (3 : Int) ∧
      prevIds (powOp (mkLeaf [] 2).1 0 3).1 (powOp (mkLeaf [] 2).1 0 3).2 = [0] ∧
      gradOf (runRule (powOp (mkLeaf [] 2).1 0 3).1 1) 0 =
        gradOf (powOp (mkLeaf [] 2).1 0 3).1 0 +
          ((3 : Int) : ℚ) * dataOf (powOp (mkLeaf [] 2).1 0 3).1 0 ^ ((3 : Int) - 1) *
            gradOf (powOp (mkLeaf [] 2).1 0 3).1 1 ∧
      (∀ j, j ≠ 0 → gradOf (runRule (powOp (mkLeaf [] 2).1 0 3).1 1) j =
        gradOf (powOp (mkLeaf [] 2).1 0 3).1 j)) :=
  ⟨⟨by decide, by decide, by decide⟩,
    claim_C4_pow (mkLeaf [] 2).1 0 3 (powOp (mkLeaf [] 2).1 0 3).1 1
      (by decide) (by decide) (by decide)⟩

/-- C5: `relu(u)` produces a node with data `max(u.data, 0)` whose only
operand is `u`; at the boundary `u.data = 0` the output's data is 0.  Its
backward rule — run later on any state `h` — adds the output's gradient into
`u`'s gradient when the output's data is strictly positive, adds nothing when
the output's data is not positive (so 0, not 1, at the boundary), and changes
no other gradient cell. -/
theorem claim_C5_relu (g : Graph) (u : Nat) (h : Graph) (i : Nat)
    (hi : i < h.length) (hop : opOf h i = .relu u) (hu : u < i) :
    dataOf (reluOp g u).1 (reluOp g u).2 = max (dataOf g u) 0 ∧
    prevIds (reluOp g u).1 (reluOp g u).2 = [u] ∧
    (dataOf g u = 0 → dataOf (reluOp g u).1 (reluOp g u).2 = 0) ∧
    (0 < dataOf h i → gradOf (runRule h i) u = gradOf h u + gradOf h i) ∧
    (dataOf h i ≤ 0 → gradOf (runRule h i) u = gradOf h u) ∧
    (∀ j, j ≠ u → gradOf (runRule h i) j = gradOf h j) := by
  have hu' : u < h.length := lt_trans hu hi
  have hdata : dataOf (reluOp g u).1 (reluOp g u).2 = max (dataOf g u) 0 := by
    show (nodeAt (g ++ [⟨if 0 ≤ dataOf g u then dataOf g u else 0, 0, .relu u⟩])
      g.length).data = _
    rw [nodeAt_append_new]
    rcases le_or_lt 0 (dataOf g u) with h0 | h0
    · simp [h0, max_eq_left h0]
    · simp [not_le.mpr h0, max_eq_right (le_of_lt h0)]
  refine ⟨hdata, ?_, ?_, ?_, ?_, ?_⟩
  · unfold reluOp prevIds opOf
    rw [nodeAt_append_new]
    rfl
  · intro h0
    rw [hdata, h0]
    simp
  · intro h0
    unfold runRule
    rw [hop, gradOf_addGrad]
    simp [hu', h0]
  · intro h0
    unfold runRule
    rw [hop, gradOf_addGrad]
    simp [hu', not_lt.mpr h0]
  · intro j hj
    unfold runRule
    rw [hop, gradOf_addGrad]
    simp [hj]

/-- C5 witness: concrete instances at `u = leaf 5` (positive branch; the
boundary conjuncts hold vacuously there but are also exercised through the
hypotheses being closed). -/
theorem claim_C5_relu_witness :
    ((1 : Nat) < ((reluOp (mkLeaf [] 5).1 0).1).length ∧
      opOf (reluOp (mkLeaf [] 5).1 0).1 1 = .relu 0 ∧ (0 : Nat) < 1) ∧
    (dataOf (reluOp (mkLeaf [] 5).1 0).1 (reluOp (mkLeaf [] 5).1 0).2 =
        max (dataOf (mkLeaf [] 5).1 0) 0 ∧
      prevIds (reluOp (mkLeaf [] 5).1 0).1 (reluOp (mkLeaf [] 5).1 0).2 = [0] ∧
      (dataOf (mkLeaf [] 5).1 0 = 0 →
        dataOf (reluOp (mkLeaf [] 5).1 0).1 (reluOp (mkLeaf [] 5).1 0).2 = 0) ∧
      (0 < dataOf (reluOp (mkLeaf [] 5).1 0).1 1 →
        gradOf (runRule (reluOp (mkLeaf [] 5).1 0).1 1) 0 =
          gradOf (reluOp (mkLeaf [] 5).1 0).1 0 + gradOf (reluOp (mkLeaf [] 5).1 0).1 1) ∧
      (dataOf (reluOp (mkLeaf [] 5).1 0).1 1 ≤ 0 →
        gradOf (runRule (reluOp (mkLeaf [] 5).1 0).1 1) 0 =
          gradOf (reluOp (mkLeaf [] 5).1 0).1 0) ∧
      (∀ j, j ≠ 0 → gradOf (runRule (reluOp (mkLeaf [] 5).1 0).1 1) j =
        gradOf (reluOp (mkLeaf [] 5).1 0).1 j)) :=
  ⟨⟨by decide, by decide, by decide⟩,
    claim_C5_relu (mkLeaf [] 5).1 0 (reluOp (mkLeaf [] 5).1 0).1 1
      (by decide) (by decide) (by decide)⟩

/-- C6: the derived operators are exactly the compositions of primitives the
specification states — `negate(u)` is `multiply(u, wrap(-1))`, `subtract(u,v)`
is `add(u, negate(v))`, `divide(u,v)` is `multiply(u, power(v,-1))` — so they
agree with those compositions in the produced graph, hence in forward data
and in every gradient assigned by any subsequent backward pass. -/
theorem claim_C6_sugar (g : Graph) (u v : Nat) :
    negOp g u = mulOp (mkLeaf g (-1)).1 u (mkLeaf g (-1)).2 ∧
    subOp g u v = addOp (negOp g v).1 u (negOp g v).2 ∧
    divOp g u v = mulOp (powOp g v (-1)).1 u (powOp g v (-1)).2 ∧
    (∀ t x, gradOf (backward (negOp g u).1 t) x =
      gradOf (backward (mulOp (mkLeaf g (-1)).1 u (mkLeaf g (-1)).2).1 t) x) ∧
    (∀ t x, gradOf (backward (subOp g u v).1 t) x =
      gradOf (backward (addOp (negOp g v).1 u (negOp g v).2).1 t) x) ∧
    (∀ t x, gradOf (backward (divOp g u v).1 t) x =
      gradOf (backward (mulOp (powOp g v (-1)).1 u (powOp g v (-1)).2).1 t) x) ∧
    dataOf (negOp g u).1 (negOp g u).2 =
      dataOf (mulOp (mkLeaf g (-1)).1 u (mkLeaf g (-1)).2).1
        (mulOp (mkLeaf g (-1)).1 u (mkLeaf g (-1)).2).2 ∧
    dataOf (subOp g u v).1 (subOp g u v).2 =
      dataOf (addOp (negOp g v).1 u (negOp g v).2).1 (addOp (negOp g v).1 u (negOp g v).2).2 ∧
    dataOf (divOp g u v).1 (divOp g u v).2 =
      dataOf (mulOp (powOp g v (-1)).1 u (powOp g v (-1)).2).1
        (mulOp (powOp g v (-1)).1 u (powOp g v (-1)).2).2 :=
  ⟨rfl, rfl, rfl, fun _ _ => rfl, fun _ _ => rfl, fun _ _ => rfl, rfl, rfl, rfl⟩

/-! ### Reachability facts -/

theorem prevIds_oob (g : Graph) (i : Nat) (h : g.length ≤ i) : prevIds g i = [] := by
  unfold prevIds opOf nodeAt
  rw [List.getElem?_eq_none h]
  rfl

theorem wf_prev_lt (g : Graph) (hg : WF g) : ∀ i, ∀ c ∈ prevIds g i, c < i := by
  intro i c hc
  by_cases hi : i < g.length
  · exact hg i hi c hc
  · rw [prevIds_oob g i (le_of_not_lt hi)] at hc
    cases hc

theorem reach_le (g : Graph) (hg : WF g) (t : Nat) : ∀ x, Reach g t x → x ≤ t := by
  intro x h
  induction h with
  | refl => exact le_refl t
  | step hv hc ih => exact le_of_lt (lt_of_lt_of_le (wf_prev_lt g hg _ _ hc) ih)

theorem reach_trans_prev {g : Graph} {i c x : Nat} (hc : c ∈ prevIds g i)
    (h : Reach g c x) : Reach g i x := by
  induction h with
  | refl => exact Reach.step Reach.refl hc
  | step hv hc' ih =>
    exact Reach.step ih hc'

theorem reach_elim {g : Graph} {t x : Nat} (h : Reach g t x) :
    x = t ∨ ∃ c ∈ prevIds g t, Reach g c x := by
  induction h with
  | refl => exact Or.inl rfl
  | step hv hc ih =>
    rcases ih with h' | ⟨c', hc', hr⟩
    · subst h'
      exact Or.inr ⟨_, hc, Reach.refl⟩
    · exact Or.inr ⟨c', hc', Reach.step hr hc⟩

/-! ### The depth-first traversal of `build_topo` -/

/-- Invariant of the `(visited, topo)` state of `build_topo`: the topo list
is duplicate-free, inside the visited set, and every node in it is preceded
by all of its operands (this is the postorder guarantee). -/
def TopoInv (g : Graph) (st : List Nat × List Nat) : Prop :=
  st.2.Nodup ∧ (∀ x ∈ st.2, x ∈ st.1) ∧
  (∀ j (hj : j < st.2.length), ∀ c ∈ prevIds g (st.2.get ⟨j, hj⟩), c ∈ st.2.take j)

theorem topo_prev_closed (g : Graph) (st : List Nat × List Nat) (hInv : TopoInv g st) :
    ∀ v ∈ st.2, ∀ c ∈ prevIds g v, c ∈ st.2 := by
  intro v hv c hc
  obtain ⟨⟨j, hj⟩, hget⟩ := List.mem_iff_get.mp hv
  exact List.take_subset j st.2 (hInv.2.2 j hj c (by rw [hget]; exact hc))

theorem reach_in_topo (g : Graph) (st : List Nat × List Nat) (hInv : TopoInv g st)
    (i : Nat) (hi : i ∈ st.2) : ∀ x, Reach g i x → x ∈ st.2 := by
  intro x hx
  induction hx with
  | refl => exact hi
  | step hv hc ih => exact topo_prev_closed g st hInv _ ih _ hc

theorem foldl_ext_mem {α β : Type} (l : List α) (F G : β → α → β)
    (h : ∀ a ∈ l, ∀ b, F b a = G b a) : ∀ b, l.foldl F b = l.foldl G b := by
  induction l with
  | nil => intro b; rfl
  | cons a l ih =>
    intro b
    rw [List.foldl_cons, List.foldl_cons, h a (List.mem_cons_self a l)]
    exact ih (fun a' ha' b' => h a' (List.mem_cons_of_mem a ha') b') _

/-- On a well-formed arena the fuelled `build_topo` is fuel-insensitive once
the fuel exceeds the start index (operand indices strictly decrease). -/
theorem topoAux_fuel (g : Graph) (hg : WF g) :
    ∀ i f f', i < f → i < f' → ∀ st, topoAux g f i st = topoAux g f' i st := by
  intro i
  induction i using Nat.strong_induction_on with
  | _ i IH =>
    intro f f' hf hf' st
    match f, f', hf, hf' with
    | fi + 1, fi' + 1, hf, hf' =>
      simp only [topoAux]
      by_cases hmem : i ∈ st.1
      · simp [hmem]
      · simp only [hmem, if_false]
        have : (prevIds g i).foldl (fun s c => topoAux g fi c s) (i :: st.1, st.2) =
            (prevIds g i).foldl (fun s c => topoAux g fi' c s) (i :: st.1, st.2) := by
          apply foldl_ext_mem
          intro c hc b
          have hci : c < i := wf_prev_lt g hg i c hc
          exact IH c hci fi fi'
            (lt_of_lt_of_le hci (Nat.lt_succ_iff.mp hf))
            (lt_of_lt_of_le hci (Nat.lt_succ_iff.mp hf')) b
        rw [this]

/-- One unfolding of a complete `build_topo` call. -/
theorem tstep_eq (g : Graph) (hg : WF g) (i : Nat) (st : List Nat × List Nat) :
    tstep g i st = if i ∈ st.1 then st
      else (((prevIds g i).foldl (fun s c => tstep g c s) (i :: st.1, st.2)).1,
            ((prevIds g i).foldl (fun s c => tstep g c s) (i :: st.1, st.2)).2 ++ [i]) := by
  have hfold : (prevIds g i).foldl (fun s c => topoAux g i c s) (i :: st.1, st.2) =
      (prevIds g i).foldl (fun s c => tstep g c s) (i :: st.1, st.2) := by
    apply foldl_ext_mem
    intro c hc b
    exact topoAux_fuel g hg c i (c + 1) (wf_prev_lt g hg i c hc) (Nat.lt_succ_self c) b
  show topoAux g (i + 1) i st = _
  simp only [topoAux]
  rw [hfold]

/-- Everything one complete `build_topo(i)` call guarantees: the invariant is
preserved, the topo list grows by an append of nodes reachable from `i`, the
visited set grows, the set of visited-but-unfinished nodes is unchanged, `i`
ends up in the topo list, and so does everything reachable from `i`. -/
def StepOut (g : Graph) (i : Nat) (st st' : List Nat × List Nat) : Prop :=
  TopoInv g st' ∧
  (∃ d, st'.2 = st.2 ++ d ∧ ∀ x ∈ d, Reach g i x) ∧
  (∀ y ∈ st.1, y ∈ st'.1) ∧
  (∀ y ∈ st'.1, y ∉ st'.2 → y ∈ st.1 ∧ y ∉ st.2) ∧
  (∀ y ∈ st.1, y ∉ st.2 → y ∈ st'.1 ∧ y ∉ st'.2) ∧
  i ∈ st'.2 ∧
  (∀ x, Reach g i x → x ∈ st'.2)

/-- The same guarantees for the fold of `build_topo` over an operand list. -/
def FoldOut (g : Graph) (cs : List Nat) (st st' : List Nat × List Nat) : Prop :=
  TopoInv g st' ∧
  (∃ d, st'.2 = st.2 ++ d ∧ ∀ x ∈ d, ∃ c ∈ cs, Reach g c x) ∧
  (∀ y ∈ st.1, y ∈ st'.1) ∧
  (∀ y ∈ st'.1, y ∉ st'.2 → y ∈ st.1 ∧ y ∉ st.2) ∧
  (∀ y ∈ st.1, y ∉ st.2 → y ∈ st'.1 ∧ y ∉ st'.2) ∧
  (∀ c ∈ cs, c ∈ st'.2 ∧ ∀ x, Reach g c x → x ∈ st'.2)

theorem dfs_fold (g : Graph) (hg : WF g) (i : Nat)
    (IH : ∀ c, c < i → ∀ st, TopoInv g st → (∀ y ∈ st.1, y ∉ st.2 → c < y) →
      StepOut g c st (tstep g c st)) :
    ∀ cs, (∀ c ∈ cs, c < i) → ∀ st, TopoInv g st → (∀ y ∈ st.1, y ∉ st.2 → i ≤ y) →
      FoldOut g cs st (cs.foldl (fun s c => tstep g c s) st) := by
  intro cs
  induction cs with
  | nil =>
    intro _ st hInv hgray
    exact ⟨hInv, ⟨[], (List.append_nil _).symm, fun x hx => absurd hx (List.not_mem_nil x)⟩,
      fun y hy => hy, fun y hy hny => ⟨hy, hny⟩, fun y hy hny => ⟨hy, hny⟩,
      fun c hc => absurd hc (List.not_mem_nil c)⟩
  | cons c cs ihcs =>
    intro hcs st hInv hgray
    have hc : c < i := hcs c (List.mem_cons_self c cs)
    obtain ⟨S1, ⟨d1, hd1, hd1r⟩, S3, S4, S5, S6, S7⟩ :=
      IH c hc st hInv (fun y hy hny => lt_of_lt_of_le hc (hgray y hy hny))
    obtain ⟨F1, ⟨d2, hd2, hd2r⟩, F3, F4, F5, F6⟩ :=
      ihcs (fun c' hc' => hcs c' (List.mem_cons_of_mem c hc')) (tstep g c st) S1
        (fun y hy hny => hgray y (S4 y hy hny).1 (S4 y hy hny).2)
    rw [List.foldl_cons]
    refine ⟨F1, ⟨d1 ++ d2, ?_, ?_⟩, ?_, ?_, ?_, ?_⟩
    · rw [hd2, hd1, List.append_assoc]
    · intro x hx
      rcases List.mem_append.mp hx with hx | hx
      · exact ⟨c, List.mem_cons_self c cs, hd1r x hx⟩
      · obtain ⟨c', hc', hr⟩ := hd2r x hx
        exact ⟨c', List.mem_cons_of_mem c hc', hr⟩
    · exact fun y hy => F3 y (S3 y hy)
    · intro y hy hny
      have h1 := F4 y hy hny
      exact S4 y h1.1 h1.2
    · intro y hy hny
      have h1 := S5 y hy hny
      exact F5 y h1.1 h1.2
    · intro c' hc'
      rcases List.mem_cons.mp hc' with h' | h'
      · subst h'
        constructor
        · rw [hd2]
          exact List.mem_append.mpr (Or.inl S6)
        · intro x hx
          rw [hd2]
          exact List.mem_append.mpr (Or.inl (S7 x hx))
      · exact F6 c' h'

theorem dfs_main (g : Graph) (hg : WF g) :
    ∀ i st, TopoInv g st → (∀ y ∈ st.1, y ∉ st.2 → i < y) → StepOut g i st (tstep g i st) := by
  intro i
  induction i using Nat.strong_induction_on with
  | _ i IH =>
    intro st hInv hgray
    rw [tstep_eq g hg]
    by_cases hmem : i ∈ st.1
    · rw [if_pos hmem]
      have hi2 : i ∈ st.2 := by
        by_contra hni
        exact lt_irrefl i (hgray i hmem hni)
      exact ⟨hInv, ⟨[], (List.append_nil _).symm, fun x hx => absurd hx (List.not_mem_nil x)⟩,
        fun y hy => hy, fun y hy hny => ⟨hy, hny⟩, fun y hy hny => ⟨hy, hny⟩, hi2,
        fun x hx => reach_in_topo g st hInv i hi2 x hx⟩
    · rw [if_neg hmem]
      have hcs : ∀ c ∈ prevIds g i, c < i := wf_prev_lt g hg i
      have hInv1 : TopoInv g (i :: st.1, st.2) :=
        ⟨hInv.1, fun x hx => List.mem_cons_of_mem i (hInv.2.1 x hx), hInv.2.2⟩
      have hgray1 : ∀ y ∈ (i :: st.1, st.2).1, y ∉ (i :: st.1, st.2).2 → i ≤ y := by
        intro y hy hny
        rcases List.mem_cons.mp hy with h' | h'
        · exact le_of_eq h'.symm
        · exact le_of_lt (hgray y h' hny)
      obtain ⟨F1, ⟨d1, hd1, hd1r⟩, F3, F4, F5, F6⟩ :=
        dfs_fold g hg i (fun c hc st' hI hgr => IH c hc st' hI hgr)
          (prevIds g i) hcs (i :: st.1, st.2) hInv1 hgray1
      have hi2 : i ∉ st.2 := fun h => hmem (hInv.2.1 i h)
      have hgrayi :=
        F5 i (List.mem_cons_self i st.1) hi2
      refine ⟨⟨?_, ?_, ?_⟩, ⟨d1 ++ [i], ?_, ?_⟩, ?_, ?_, ?_, ?_, ?_⟩
      · rw [List.nodup_append]
        exact ⟨F1.1, List.nodup_singleton i,
          fun a ha hai => hgrayi.2 (by rw [List.mem_singleton.mp hai] at ha; exact ha)⟩
      · intro x hx
        rcases List.mem_append.mp hx with hx | hx
        · exact F1.2.1 x hx
        · rw [List.mem_singleton.mp hx]
          exact hgrayi.1
      · intro j hj c hc
        by_cases hjl :
          j < ((prevIds g i).foldl (fun s c => tstep g c s) (i :: st.1, st.2)).2.length
        · have hget :
              (((prevIds g i).foldl (fun s c => tstep g c s) (i :: st.1, st.2)).2 ++ [i]).get
                ⟨j, hj⟩ =
              ((prevIds g i).foldl (fun s c => tstep g c s) (i :: st.1, st.2)).2.get
                ⟨j, hjl⟩ := List.get_append j hjl
          rw [hget] at hc
          have hin := F1.2.2 j hjl c hc
          rw [List.take_append_eq_append_take, Nat.sub_eq_zero_of_le (le_of_lt hjl)]
          exact List.mem_append.mpr (Or.inl hin)
        · have hjlen : (((prevIds g i).foldl (fun s c => tstep g c s)
              (i :: st.1, st.2)).2 ++ [i]).length =
              ((prevIds g i).foldl (fun s c => tstep g c s) (i :: st.1, st.2)).2.length + 1 := by
            rw [List.length_append]
            rfl
          have hjeq : j =
              ((prevIds g i).foldl (fun s c => tstep g c s) (i :: st.1, st.2)).2.length := by
            rw [hjlen] at hj
            omega
          have hget :
              (((prevIds g i).foldl (fun s c => tstep g c s) (i :: st.1, st.2)).2 ++ [i]).get
                ⟨j, hj⟩ = i := by
            rw [List.get_eq_getElem]
            simp only [hjeq]
            exact List.getElem_concat_length _ _ _ rfl _
          rw [hget] at hc
          rw [hjeq, List.take_left]
          exact (F6 c hc).1
      · rw [hd1, List.append_assoc]
      · intro x hx
        rcases List.mem_append.mp hx with hx | hx
        · obtain ⟨c, hc, hr⟩ := hd1r x hx
          exact reach_trans_prev hc hr
        · rw [List.mem_singleton.mp hx]
          exact Reach.refl
      · exact fun y hy => F3 y (List.mem_cons_of_mem i hy)
      · intro y hy hny
        have hny2 : y ∉ ((prevIds g i).foldl (fun s c => tstep g c s) (i :: st.1, st.2)).2 :=
          fun h => hny (List.mem_append.mpr (Or.inl h))
        have h1 := F4 y hy hny2
        rcases List.mem_cons.mp h1.1 with h' | h'
        · exfalso
          exact hny (List.mem_append.mpr (Or.inr (by rw [h']; exact List.mem_singleton.mpr rfl)))
        · exact ⟨h', h1.2⟩
      · intro y hy hny
        have hyne : y ≠ i := fun h => hmem (h ▸ hy)
        have h1 := F5 y (List.mem_cons_of_mem i hy) hny
        refine ⟨h1.1, ?_⟩
        intro h
        rcases List.mem_append.mp h with h' | h'
        · exact h1.2 h'
        · exact hyne (List.mem_singleton.mp h')
      · exact List.mem_append.mpr (Or.inr (List.mem_singleton.mpr rfl))
      · intro x hx
        rcases reach_elim hx with h' | ⟨c, hc, hr⟩
        · rw [h']
          exact List.mem_append.mpr (Or.inr (List.mem_singleton.mpr rfl))
        · exact List.mem_append.mpr (Or.inl ((F6 c hc).2 x hr))

/-- The `build_topo` output: duplicate-free, consists of exactly the nodes
reachable from the terminal, and lists every node after all of its operands. -/
theorem buildTopo_spec (g : Graph) (hg : WF g) (t : Nat) :
    (buildTopo g t).Nodup ∧
    (∀ x, x ∈ buildTopo g t ↔ Reach g t x) ∧
    (∀ j (hj : j < (buildTopo g t).length),
      ∀ c ∈ prevIds g ((buildTopo g t).get ⟨j, hj⟩), c ∈ (buildTopo g t).take j) := by
  have hInv0 : TopoInv g ([], []) :=
    ⟨List.nodup_nil, fun x hx => absurd hx (List.not_mem_nil x),
      fun j hj => absurd hj (by simp)⟩
  obtain ⟨F1, ⟨d, hd, hdr⟩, _, _, _, _, F7⟩ :=
    dfs_main g hg t ([], []) hInv0 (fun y hy => absurd hy (List.not_mem_nil y))
  refine ⟨F1.1, ?_, F1.2.2⟩
  intro x
  constructor
  · intro hx
    have : x ∈ ([] : List Nat) ++ d := by
      rw [← hd]
      exact hx
    rw [List.nil_append] at this
    exact hdr x this
  · exact F7 x

/-! ### Path enumeration: emptiness, stabilisation, and the adjoint recurrence -/

theorem flatMap_eq_nil_of {α β : Type} (l : List α) (f : α → List β)
    (h : ∀ a ∈ l, f a = []) : l.flatMap f = [] := by
  induction l with
  | nil => rfl
  | cons a l ih =>
    rw [List.flatMap_cons, h a (List.mem_cons_self a l),
      ih (fun a' ha' => h a' (List.mem_cons_of_mem a ha')), List.nil_append]

theorem flatMap_ext_mem {α β : Type} (l : List α) (f f' : α → List β)
    (h : ∀ a ∈ l, f a = f' a) : l.flatMap f = l.flatMap f' := by
  induction l with
  | nil => rfl
  | cons a l ih =>
    rw [List.flatMap_cons, List.flatMap_cons, h a (List.mem_cons_self a l),
      ih (fun a' ha' => h a' (List.mem_cons_of_mem a ha'))]

theorem sum_flatMap {α : Type} (l : List α) (f : α → List ℚ) :
    (l.flatMap f).sum = (l.map (fun a => (f a).sum)).sum := by
  induction l with
  | nil => rfl
  | cons a l ih => rw [List.flatMap_cons, List.sum_append, List.map_cons, List.sum_cons, ih]

theorem mem_prev_of_enum {g : Graph} {v : Nat} {pc : Nat × Nat}
    (h : pc ∈ (prevIds g v).enum) : pc.2 ∈ prevIds g v := by
  obtain ⟨i, x⟩ := pc
  have := List.mem_enum h
  rw [this.2]
  exact List.getElem_mem _

theorem pathsTo_gt (g : Graph) (hg : WF g) (t : Nat) :
    ∀ f x, t < x → pathsTo g f t x = [] := by
  intro f
  induction f with
  | zero =>
    intro x hx
    simp only [pathsTo]
    rw [if_neg (by omega)]
  | succ f ih =>
    intro x hx
    simp only [pathsTo]
    rw [if_neg (by omega), List.nil_append]
    apply flatMap_eq_nil_of
    intro v _
    apply flatMap_eq_nil_of
    intro pc hpc
    by_cases hpc2 : pc.2 = x
    · rw [if_pos hpc2]
      have hxv : x < v := by
        have := wf_prev_lt g hg v pc.2 (mem_prev_of_enum hpc)
        omega
      rw [ih v (by omega)]
      rfl
    · rw [if_neg hpc2]

theorem pathsTo_self (g : Graph) (hg : WF g) (t : Nat) :
    ∀ f, pathsTo g f t t = [[]] := by
  intro f
  cases f with
  | zero =>
    simp only [pathsTo]
    simp
  | succ f =>
    simp only [pathsTo]
    have : (List.range g.length).flatMap (fun v =>
        (prevIds g v).enum.flatMap (fun pc =>
          if pc.2 = t then (pathsTo g f t v).map (fun s => s ++ [(v, pc.1)]) else [])) = [] := by
      apply flatMap_eq_nil_of
      intro v _
      apply flatMap_eq_nil_of
      intro pc hpc
      by_cases hpc2 : pc.2 = t
      · rw [if_pos hpc2]
        have htv : t < v := by
          have := wf_prev_lt g hg v pc.2 (mem_prev_of_enum hpc)
          omega
        rw [pathsTo_gt g hg t f v htv]
        rfl
      · rw [if_neg hpc2]
    rw [this]
    simp

theorem pathsTo_stable (g : Graph) (hg : WF g) (t : Nat) :
    ∀ k x f f', t - x ≤ k → t - x ≤ f → t - x ≤ f' →
      pathsTo g f t x = pathsTo g f' t x := by
  intro k
  induction k using Nat.strong_induction_on with
  | _ k IH =>
    intro x f f' hk hf hf'
    rcases lt_trichotomy t x with hlt | heq | hgt
    · rw [pathsTo_gt g hg t f x hlt, pathsTo_gt g hg t f' x hlt]
    · subst heq
      rw [pathsTo_self g hg t f, pathsTo_self g hg t f']
    · have hpos : 1 ≤ t - x := by omega
      cases f with
      | zero => omega
      | succ fi =>
        cases f' with
        | zero => omega
        | succ fi' =>
          simp only [pathsTo]
          congr 1
          apply flatMap_ext_mem
          intro v _
          apply flatMap_ext_mem
          intro pc hpc
          by_cases hpc2 : pc.2 = x
          · rw [if_pos hpc2, if_pos hpc2]
            have hxv : x < v := by
              have := wf_prev_lt g hg v pc.2 (mem_prev_of_enum hpc)
              omega
            rcases le_or_lt v t with hvt | hvt
            · rw [IH (t - v) (by omega) v fi fi' (le_refl _) (by omega) (by omega)]
            · rw [pathsTo_gt g hg t fi v hvt, pathsTo_gt g hg t fi' v hvt]
          · rw [if_neg hpc2, if_neg hpc2]

theorem pathSum_self (g : Graph) (hg : WF g) (t : Nat) : pathSum g t t = 1 := by
  unfold pathSum
  rw [pathsTo_self g hg t]
  simp [pweight]

theorem pathsTo_unreach (g : Graph) (t : Nat) :
    ∀ f x, ¬ Reach g t x → pathsTo g f t x = [] := by
  intro f
  induction f with
  | zero =>
    intro x hx
    simp only [pathsTo]
    rw [if_neg (fun h => hx (by rw [h]; exact Reach.refl))]
  | succ f ih =>
    intro x hx
    simp only [pathsTo]
    rw [if_neg (fun h => hx (by rw [h]; exact Reach.refl)), List.nil_append]
    apply flatMap_eq_nil_of
    intro v _
    apply flatMap_eq_nil_of
    intro pc hpc
    by_cases hpc2 : pc.2 = x
    · rw [if_pos hpc2]
      have hnv : ¬ Reach g t v := by
        intro hv
        exact hx (Reach.step hv (hpc2 ▸ mem_prev_of_enum hpc))
      rw [ih v hnv]
      rfl
    · rw [if_neg hpc2]

theorem pathSum_unreach (g : Graph) (t x : Nat) (h : ¬ Reach g t x) :
    pathSum g t x = 0 := by
  unfold pathSum
  rw [pathsTo_unreach g t (t + 1) x h]
  rfl

theorem pweight_append (g : Graph) (s : List (Nat × Nat)) (vp : Nat × Nat) :
    pweight g (s ++ [vp]) = pweight g s * lgrad g vp.1 vp.2 := by
  unfold pweight
  rw [List.map_append, List.prod_append]
  simp

theorem pathsTo_inner_sum (g : Graph) (hg : WF g) (t x v : Nat) :
    (((prevIds g v).enum.flatMap (fun pc =>
        if pc.2 = x then (pathsTo g t t v).map (fun s => s ++ [(v, pc.1)]) else [])).map
      (pweight g)).sum = localSum g v x * pathSum g t v := by
  rw [List.map_flatMap, sum_flatMap]
  unfold localSum
  rw [← List.sum_map_mul_right]
  have hpt : ∀ pc : Nat × Nat,
      ((if pc.2 = x then (pathsTo g t t v).map (fun s => s ++ [(v, pc.1)]) else []).map
        (pweight g)).sum = (if pc.2 = x then lgrad g v pc.1 else 0) * pathSum g t v := by
    intro pc
    by_cases hpc : pc.2 = x
    · rw [if_pos hpc, if_pos hpc, List.map_map]
      have hcomp : (pweight g) ∘ (fun s => s ++ [(v, pc.1)]) =
          fun s => pweight g s * lgrad g v pc.1 :=
        funext (fun s => pweight_append g s (v, pc.1))
      rw [hcomp, List.sum_map_mul_right]
      have hstab : pathsTo g t t v = pathsTo g (t + 1) t v :=
        pathsTo_stable g hg t t v t (t + 1) (Nat.sub_le t v) (Nat.sub_le t v) (by omega)
      rw [hstab]
      exact mul_comm _ _
    · rw [if_neg hpc, if_neg hpc, List.map_nil]
      rw [zero_mul]
      rfl
  simp only [hpt]

/-- The adjoint recurrence: the chain-rule path sum at `x` is the terminal
seed plus, over every consumer node, that consumer's local contribution factor
into `x` times the consumer's own path sum. -/
theorem pathSum_rec (g : Graph) (hg : WF g) (t x : Nat) :
    pathSum g t x = (if x = t then 1 else 0) +
      ((List.range g.length).map (fun v => localSum g v x * pathSum g t v)).sum := by
  conv_lhs => rw [pathSum]
  simp only [pathsTo]
  rw [List.map_append, List.sum_append]
  congr 1
  · by_cases hx : x = t <;> simp [hx, pweight]
  · rw [List.map_flatMap, sum_flatMap]
    simp only [pathsTo_inner_sum g hg t x]

/-! ### The backward execution computes the chain-rule path sums -/

theorem prevIds_eq_of (H g : Graph) (ho : ∀ i, opOf H i = opOf g i) (v : Nat) :
    prevIds H v = prevIds g v := by
  unfold prevIds
  rw [ho v]

theorem lgrad_eq_of (H g : Graph) (hd : ∀ i, dataOf H i = dataOf g i)
    (ho : ∀ i, opOf H i = opOf g i) (v p : Nat) : lgrad H v p = lgrad g v p := by
  unfold lgrad
  rw [ho v]
  cases opOf g v <;> simp [hd]

theorem localSum_eq_of (H g : Graph) (hd : ∀ i, dataOf H i = dataOf g i)
    (ho : ∀ i, opOf H i = opOf g i) (v x : Nat) : localSum H v x = localSum g v x := by
  unfold localSum
  rw [prevIds_eq_of H g ho v]
  apply congrArg
  apply List.map_congr_left
  intro pc _
  rw [lgrad_eq_of H g hd ho]

theorem localSum_not_prev (g : Graph) (v x : Nat) (h : x ∉ prevIds g v) :
    localSum g v x = 0 := by
  unfold localSum
  apply List.sum_eq_zero
  intro q hq
  rw [List.mem_map] at hq
  obtain ⟨pc, hpc, hq⟩ := hq
  rw [← hq, if_neg (fun h2 => h (by rw [← h2]; exact mem_prev_of_enum hpc))]

/-- The postorder guarantee read off the reversed execution order: writing
`reverse topo = P ++ w :: Y`, every operand of `w` is still ahead (in `Y`). -/
theorem topo_order_getElem (g : Graph) (hg : WF g) (t : Nat) :
    ∀ j w, (buildTopo g t)[j]? = some w →
      ∀ c ∈ prevIds g w, c ∈ (buildTopo g t).take j := by
  intro j w hjw c hc
  have hj : j < (buildTopo g t).length := by
    by_contra h
    rw [List.getElem?_eq_none (le_of_not_lt h)] at hjw
    cases hjw
  have hget : (buildTopo g t).get ⟨j, hj⟩ = w := by
    rw [List.getElem?_eq_getElem hj] at hjw
    rw [List.get_eq_getElem]
    exact Option.some.inj hjw
  exact (buildTopo_spec g hg t).2.2 j hj c (by rw [hget]; exact hc)

/-- When the reversed topo order splits as `P ++ v :: S`, no node of `v :: S`
consumes `v`: every consumer of `v` has already run (is in `P`). -/
theorem no_consumer_in_suffix (g : Graph) (hg : WF g) (t : Nat)
    (P : List Nat) (v : Nat) (S : List Nat)
    (hsplit : P ++ v :: S = (buildTopo g t).reverse) :
    ∀ w ∈ v :: S, v ∉ prevIds g w := by
  have hT : buildTopo g t = S.reverse ++ v :: P.reverse := by
    have h1 := congrArg List.reverse hsplit
    rw [List.reverse_reverse] at h1
    rw [← h1, List.reverse_append]
    simp
  intro w hw hvw
  rcases List.mem_cons.mp hw with hwv | hwS
  · subst hwv
    exact absurd (wf_prev_lt g hg w w hvw) (lt_irrefl w)
  · obtain ⟨j, hjw⟩ := List.mem_iff_getElem?.mp (List.mem_reverse.mpr hwS)
    have hjlen : j < S.reverse.length := by
      by_contra h
      rw [List.getElem?_eq_none (le_of_not_lt h)] at hjw
      cases hjw
    have hjT : (buildTopo g t)[j]? = some w := by
      rw [hT, List.getElem?_append]
      rw [if_pos hjlen]
      exact hjw
    have hcv := topo_order_getElem g hg t j w hjT v hvw
    have hvS : v ∈ S.reverse := by
      rw [hT, List.take_append_eq_append_take, Nat.sub_eq_zero_of_le (le_of_lt hjlen)] at hcv
      rw [List.take_zero, List.append_nil] at hcv
      exact List.take_subset j S.reverse hcv
    have hnd : (buildTopo g t).Nodup := (buildTopo_spec g hg t).1
    rw [hT, List.nodup_append] at hnd
    exact hnd.2.2 hvS (List.mem_cons_self v P.reverse)

/-- Summing a function over a duplicate-free list of indices below `n` equals
summing it over `range n` when the function vanishes off the list. -/
theorem sum_over_nodup_sub (P : List Nat) (n : Nat) (f : Nat → ℚ)
    (hnd : P.Nodup) (hsub : ∀ w ∈ P, w < n) (hz : ∀ w, w < n → w ∉ P → f w = 0) :
    (P.map f).sum = ((List.range n).map f).sum := by
  rw [← List.sum_toFinset f hnd, ← List.sum_toFinset f (List.nodup_range n)]
  apply Finset.sum_subset
  · intro w hw
    rw [List.mem_toFinset] at hw
    rw [List.mem_toFinset, List.mem_range]
    exact hsub w hw
  · intro w hw hnw
    rw [List.mem_toFinset, List.mem_range] at hw
    rw [List.mem_toFinset] at hnw
    exact hz w hw hnw

/-- Invariant of the reverse-order rule execution: after running the rules of
the prefix `P`, every gradient cell holds the seed plus the contributions of
the already-run consumers, each weighted by its (abstract) adjoint value `A`. -/
theorem exec_fold (g : Graph) (hg : WF g) (t : Nat) (ht : t < g.length)
    (A : Nat → ℚ)
    (hA : ∀ v, A v = (if v = t then 1 else 0) +
      ((List.range g.length).map (fun w => localSum g w v * A w)).sum)
    (hA0 : ∀ v, ¬ Reach g t v → A v = 0) :
    ∀ (S P : List Nat) (H : Graph),
      P ++ S = (buildTopo g t).reverse →
      H.length = g.length → (∀ x, dataOf H x = dataOf g x) →
      (∀ x, opOf H x = opOf g x) →
      (∀ x, gradOf H x = (if x = t then 1 else 0) +
        (P.map (fun w => localSum g w x * A w)).sum) →
      ∀ x, gradOf (S.foldl runRule H) x = (if x = t then 1 else 0) +
        ((P ++ S).map (fun w => localSum g w x * A w)).sum := by
  intro S
  induction S with
  | nil =>
    intro P H _ _ _ _ hInv x
    rw [List.append_nil, List.foldl_nil]
    exact hInv x
  | cons v S ih =>
    intro P H hsplit hlen hd ho hInv x
    have hRnd : ((buildTopo g t).reverse).Nodup :=
      List.nodup_reverse.mpr (buildTopo_spec g hg t).1
    have hvR : v ∈ (buildTopo g t).reverse := by
      rw [← hsplit]
      exact List.mem_append.mpr (Or.inr (List.mem_cons_self v S))
    have hvReach : Reach g t v :=
      ((buildTopo_spec g hg t).2.1 v).mp (List.mem_reverse.mp hvR)
    have hvt : v ≤ t := reach_le g hg t v hvReach
    have hvlen : v < g.length := lt_of_le_of_lt hvt ht
    have hPnd : P.Nodup :=
      List.Nodup.sublist (by rw [← hsplit]; exact List.sublist_append_left P (v :: S)) hRnd
    have hPsub : ∀ w ∈ P, w < g.length := by
      intro w hw
      have hwR : w ∈ (buildTopo g t).reverse := by
        rw [← hsplit]
        exact List.mem_append.mpr (Or.inl hw)
      have : Reach g t w := ((buildTopo_spec g hg t).2.1 w).mp (List.mem_reverse.mp hwR)
      exact lt_of_le_of_lt (reach_le g hg t w this) ht
    -- the gradient of v is fully accumulated: it equals its adjoint value
    have hgv : gradOf H v = A v := by
      rw [hInv v, hA v]
      congr 1
      apply sum_over_nodup_sub P g.length _ hPnd hPsub
      intro w hwlen hwP
      by_cases hwReach : Reach g t w
      · have hwR : w ∈ v :: S := by
          have : w ∈ (buildTopo g t).reverse :=
            List.mem_reverse.mpr (((buildTopo_spec g hg t).2.1 w).mpr hwReach)
          rw [← hsplit] at this
          rcases List.mem_append.mp this with h' | h'
          · exact absurd h' hwP
          · exact h'
        rw [localSum_not_prev g w v (no_consumer_in_suffix g hg t P v S hsplit w hwR),
          zero_mul]
      · rw [hA0 w hwReach, mul_zero]
    -- run v's rule
    have hstep : ∀ y, gradOf (runRule H v) y = gradOf H y + localSum g v y * A v := by
      intro y
      rw [runRule_grad H v (by rw [hlen]; exact hvlen)
        (by rw [prevIds_eq_of H g ho]; exact wf_prev_lt g hg v) y]
      rw [localSum_eq_of H g hd ho, hgv]
    rw [List.foldl_cons]
    have hres := ih (P ++ [v]) (runRule H v)
      (by rw [List.append_assoc]; exact hsplit)
      (by rw [length_runRule, hlen])
      (fun y => by rw [dataOf_runRule, hd])
      (fun y => by rw [opOf_runRule, ho])
      (fun y => by
        rw [hstep y, hInv y, List.map_append, List.sum_append]
        simp only [List.map_cons, List.map_nil, List.sum_cons, List.sum_nil]
        ring)
    rw [hres x, List.append_assoc]
    rfl

/-- Chain rule, master form: on a well-formed graph with all gradients zero,
`backward(t)` leaves in every node `x` exactly the sum over all paths from
`t` to `x` of the products of the local partial derivatives along the path
(`pathSum`); nodes unreachable from `t` (where no path exists) keep 0. -/
theorem backward_pathSum (g : Graph) (hg : WF g) (hz : ZeroGrads g) (t : Nat)
    (ht : t < g.length) : ∀ x, gradOf (backward g t) x = pathSum g t x := by
  have hbase : ∀ y, gradOf (setGrad g t 1) y = (if y = t then 1 else 0) +
      (([] : List Nat).map (fun w => localSum g w y * pathSum g t w)).sum := by
    intro y
    rw [gradOf_setGrad]
    by_cases hy : y = t
    · rw [if_pos ⟨hy, hy ▸ ht⟩, if_pos hy]
      simp
    · rw [if_neg (fun h => hy h.1), if_neg hy]
      by_cases hyl : y < g.length
      · rw [hz y hyl]
        simp
      · rw [gradOf_oob g y (le_of_not_lt hyl)]
        simp
  have hexec := exec_fold g hg t ht (pathSum g t)
    (fun v => pathSum_rec g hg t v) (fun v => pathSum_unreach g t v)
    ((buildTopo g t).reverse) [] (setGrad g t 1)
    (by rw [List.nil_append])
    (length_setGrad g t 1)
    (fun y => dataOf_updGrad g t _ y)
    (fun y => opOf_updGrad g t _ y)
    hbase
  intro x
  show gradOf (((buildTopo g t).reverse).foldl runRule (setGrad g t 1)) x = _
  rw [hexec x, List.nil_append]
  have hRnd : ((buildTopo g t).reverse).Nodup :=
    List.nodup_reverse.mpr (buildTopo_spec g hg t).1
  have hRsub : ∀ w ∈ (buildTopo g t).reverse, w < g.length := by
    intro w hw
    have : Reach g t w := ((buildTopo_spec g hg t).2.1 w).mp (List.mem_reverse.mp hw)
    exact lt_of_le_of_lt (reach_le g hg t w this) ht
  rw [sum_over_nodup_sub ((buildTopo g t).reverse) g.length _ hRnd hRsub
    (fun w _ hwR => by
      have hnw : ¬ Reach g t w := fun h =>
        hwR (List.mem_reverse.mpr (((buildTopo_spec g hg t).2.1 w).mpr h))
      rw [pathSum_unreach g t w hnw, mul_zero])]
  exact (pathSum_rec g hg t x).symm

/-! ### Graphs built from the operators are well-formed with zero gradients -/

theorem wf_zero_append (g : Graph) (n : Node) (hw : WF g) (hz : ZeroGrads g)
    (hn : ∀ c ∈ prevOf n.op, c < g.length) (hng : n.grad = 0) :
    WF (g ++ [n]) ∧ ZeroGrads (g ++ [n]) := by
  constructor
  · intro i hi c hc
    rw [List.length_append] at hi
    by_cases hil : i < g.length
    · rw [prevIds_append_old g [n] i hil] at hc
      exact hw i hil c hc
    · have hieq : i = g.length := by
        simp at hi
        omega
      subst hieq
      have hprev : prevIds (g ++ [n]) g.length = prevOf n.op := by
        unfold prevIds opOf
        rw [nodeAt_append_new]
      rw [hprev] at hc
      exact hn c hc
  · intro i hi
    rw [List.length_append] at hi
    by_cases hil : i < g.length
    · rw [gradOf_append_old g [n] i hil]
      exact hz i hil
    · have hieq : i = g.length := by
        simp at hi
        omega
      subst hieq
      unfold gradOf
      rw [nodeAt_append_new]
      exact hng

theorem built_wf_zeroGrads (g : Graph) (h : Built g) : WF g ∧ ZeroGrads g := by
  induction h with
  | nil =>
    refine ⟨?_, ?_⟩ <;> intro i hi <;> simp at hi
  | leaf q hb ih =>
    exact wf_zero_append _ _ ih.1 ih.2 (fun c hc => by simp [prevOf] at hc) rfl
  | add a b hb ha hb' ih =>
    refine wf_zero_append _ _ ih.1 ih.2 ?_ rfl
    intro c hc
    simp [prevOf] at hc
    rcases hc with h' | h' <;> subst h' <;> assumption
  | mul a b hb ha hb' ih =>
    refine wf_zero_append _ _ ih.1 ih.2 ?_ rfl
    intro c hc
    simp [prevOf] at hc
    rcases hc with h' | h' <;> subst h' <;> assumption
  | pow a k hb ha ih =>
    refine wf_zero_append _ _ ih.1 ih.2 ?_ rfl
    intro c hc
    simp [prevOf] at hc
    subst hc
    assumption
  | relu a hb ha ih =>
    refine wf_zero_append _ _ ih.1 ih.2 ?_ rfl
    intro c hc
    simp [prevOf] at hc
    subst hc
    assumption

/-! ### Claims C1, C2, C3 -/

/-- The concrete diamond graph of the specification's first end-to-end
scenario: `a = leaf 1.0` (id 0), `b = leaf 2.0` (id 1), `c = a + b` (id 2),
`d = c + b` (id 3); `b` feeds the two consumers `c` and `d`. -/
def Gdiamond : Graph :=
  (addOp (addOp (mkLeaf (mkLeaf [] 1).1 2).1 0 1).1 2 1).1

theorem built_Gdiamond : Built Gdiamond :=
  Built.add 2 1
    (Built.add 0 1 (Built.leaf 2 (Built.leaf 1 Built.nil)) (by decide) (by decide))
    (by decide) (by decide)

/-- C1: on every acyclic computation graph built from the operators, after
`backward(terminal)` the gradient stored in each node reachable from the
terminal equals the sum, over every path from the terminal to that node, of
the product of the local partial derivatives along the path (`pathSum`
enumerates exactly those paths and multiplies `lgrad` along each). -/
theorem claim_C1_chain_rule (g : Graph) (t : Nat) (hb : Built g) (ht : t < g.length) :
    ∀ x, Reach g t x → gradOf (backward g t) x = pathSum g t x := by
  obtain ⟨hw, hz⟩ := built_wf_zeroGrads g hb
  intro x _
  exact backward_pathSum g hw hz t ht x

/-- C1 witness: the diamond graph, whose path sums and backward gradients
are computed concretely. -/
theorem claim_C1_chain_rule_witness :
    (Built Gdiamond ∧ (3 : Nat) < Gdiamond.length) ∧
    (∀ x, Reach Gdiamond 3 x →
      gradOf (backward Gdiamond 3) x = pathSum Gdiamond 3 x) :=
  ⟨⟨built_Gdiamond, by decide⟩, claim_C1_chain_rule Gdiamond 3 built_Gdiamond (by decide)⟩

/-- C2: contributions from several consumers accumulate instead of
overwriting: after `backward(t)` every node's gradient is the terminal seed
plus the sum, over all consumer nodes, of that consumer's local contribution
factor times the consumer's own chain-rule value (first conjunct); in
particular, in the concrete diamond `a=1.0, b=2.0, c=a+b, d=c+b`, after
`backward(d)` the gradient of `b` is exactly `2.0` — the sum of the two unit
contributions through `c` and through `d` (second conjunct). -/
theorem claim_C2_accumulate (g : Graph) (t : Nat) (hb : Built g) (ht : t < g.length) :
    (∀ x, gradOf (backward g t) x = (if x = t then 1 else 0) +
      ((List.range g.length).map (fun v => localSum g v x * pathSum g t v)).sum) ∧
    gradOf (backward Gdiamond 3) 1 = 2 := by
  obtain ⟨hw, hz⟩ := built_wf_zeroGrads g hb
  constructor
  · intro x
    rw [backward_pathSum g hw hz t ht x]
    exact pathSum_rec g hw t x
  · decide

/-- C2 witness: instantiated on the diamond graph itself. -/
theorem claim_C2_accumulate_witness :
    (Built Gdiamond ∧ (3 : Nat) < Gdiamond.length) ∧
    ((∀ x, gradOf (backward Gdiamond 3) x = (if x = 3 then 1 else 0) +
      ((List.range Gdiamond.length).map
        (fun v => localSum Gdiamond v x * pathSum Gdiamond 3 v)).sum) ∧
     gradOf (backward Gdiamond 3) 1 = 2) :=
  ⟨⟨built_Gdiamond, by decide⟩, claim_C2_accumulate Gdiamond 3 built_Gdiamond (by decide)⟩

/-- C3: `backward(t)` seeds the terminal's gradient to 1.0 and then runs the
backward rules as a fold over the reversed depth-first postorder; that
execution order is duplicate-free (each rule runs exactly once), contains
exactly the nodes reachable from the terminal, and schedules every node
before all of its operands — equivalently, when the execution order splits as
`P ++ v :: S`, every operand of `v` still lies in the unprocessed suffix `S`,
so all of a node's consumers (which are operands' predecessors in this order)
have deposited their contributions before the node's own rule reads them. -/
theorem claim_C3_schedule (g : Graph) (t : Nat) (hg : WF g) (ht : t < g.length) :
    gradOf (setGrad g t 1) t = 1 ∧
    backward g t = ((buildTopo g t).reverse).foldl runRule (setGrad g t 1) ∧
    ((buildTopo g t).reverse).Nodup ∧
    (∀ x, x ∈ (buildTopo g t).reverse ↔ Reach g t x) ∧
    (∀ P v S, P ++ v :: S = (buildTopo g t).reverse → ∀ c ∈ prevIds g v, c ∈ S) := by
  refine ⟨?_, rfl, ?_, ?_, ?_⟩
  · rw [gradOf_setGrad, if_pos ⟨rfl, ht⟩]
  · exact List.nodup_reverse.mpr (buildTopo_spec g hg t).1
  · intro x
    rw [List.mem_reverse]
    exact (buildTopo_spec g hg t).2.1 x
  · intro P v S hsplit c hc
    have hT : buildTopo g t = S.reverse ++ v :: P.reverse := by
      have h1 := congrArg List.reverse hsplit
      rw [List.reverse_reverse] at h1
      rw [← h1, List.reverse_append]
      simp
    have hvT : (buildTopo g t)[S.reverse.length]? = some v := by
      rw [hT, List.getElem?_append_right (le_refl _), Nat.sub_self]
      simp
    have := topo_order_getElem g hg t S.reverse.length v hvT c hc
    rw [hT, List.take_append_eq_append_take, Nat.sub_self, List.take_zero,
      List.append_nil, List.take_length] at this
    exact List.mem_reverse.mp this

/-- C3 witness: the diamond graph at terminal `d` (id 3). -/
theorem claim_C3_schedule_witness :
    (WF Gdiamond ∧ (3 : Nat) < Gdiamond.length) ∧
    (gradOf (setGrad Gdiamond 3 1) 3 = 1 ∧
     backward Gdiamond 3 = ((buildTopo Gdiamond 3).reverse).foldl runRule (setGrad Gdiamond 3 1) ∧
     ((buildTopo Gdiamond 3).reverse).Nodup ∧
     (∀ x, x ∈ (buildTopo Gdiamond 3).reverse ↔ Reach Gdiamond 3 x) ∧
     (∀ P v S, P ++ v :: S = (buildTopo Gdiamond 3).reverse →
       ∀ c ∈ prevIds Gdiamond v, c ∈ S)) :=
  ⟨⟨by decide, by decide⟩, claim_C3_schedule Gdiamond 3 (by decide) (by decide)⟩

/-! ### Path sums on a graph extended by fresh operator nodes -/

theorem opOf_append_new (g : Graph) (n : Node) : opOf (g ++ [n]) g.length = n.op := by
  unfold opOf
  rw [nodeAt_append_new]

theorem dataOf_append_new (g : Graph) (n : Node) : dataOf (g ++ [n]) g.length = n.data := by
  unfold dataOf
  rw [nodeAt_append_new]

theorem sum_range_zero_of (n : Nat) (f : Nat → ℚ) (h : ∀ v, v < n → f v = 0) :
    ((List.range n).map f).sum = 0 := by
  apply List.sum_eq_zero
  intro q hq
  rw [List.mem_map] at hq
  obtain ⟨v, hv, hq⟩ := hq
  rw [← hq]
  exact h v (List.mem_range.mp hv)

theorem range_succ_sum (n : Nat) (f : Nat → ℚ) :
    ((List.range (n + 1)).map f).sum = ((List.range n).map f).sum + f n := by
  rw [List.range_succ, List.map_append, List.sum_append]
  simp

theorem localSum_mul_left (g' : Graph) (i a b : Nat) (hop : opOf g' i = .mul a b)
    (hab : a ≠ b) : localSum g' i a = dataOf g' b := by
  unfold localSum prevIds lgrad
  rw [hop]
  have hba : b ≠ a := fun h => hab h.symm
  simp [prevOf, List.enum, hba]

theorem localSum_mul_right (g' : Graph) (i a b : Nat) (hop : opOf g' i = .mul a b)
    (hab : a ≠ b) : localSum g' i b = dataOf g' a := by
  unfold localSum prevIds lgrad
  rw [hop]
  simp [prevOf, List.enum, hab]

theorem localSum_pow_base (g' : Graph) (i a : Nat) (k : Int)
    (hop : opOf g' i = .pow a k) :
    localSum g' i a = (k : ℚ) * dataOf g' a ^ (k - 1) := by
  unfold localSum prevIds lgrad
  rw [hop]
  simp [prevOf, List.enum]

/-- A node of the original graph that consumes `u` is unreachable from a
freshly appended terminal whose only operand path into the original graph
leads to `u`: every reachable original node already sits at or below `u`. -/
theorem old_consumer_kill (g' : Graph) (hg' : WF g') (u n t : Nat) (hu : u < n)
    (hnt : n ≤ t)
    (hnew : ∀ w, n ≤ w → w ≤ t → ∀ c ∈ prevIds g' w, c < n → c = u) :
    ∀ v, v < n → u ∈ prevIds g' v → ¬ Reach g' t v := by
  have hle : ∀ v, Reach g' t v → v < n → v ≤ u := by
    intro v hv
    induction hv with
    | refl => omega
    | step hw hc ih =>
      intro hcn
      rename_i w c
      by_cases hwn : w < n
      · have h1 := wf_prev_lt g' hg' w c hc
        have h2 := ih hwn
        omega
      · have hwt : w ≤ t := reach_le g' hg' t w hw
        have := hnew w (le_of_not_lt hwn) hwt c hc hcn
        omega
  intro v hvn hup hr
  have h1 := hle v hr hvn
  have h2 := wf_prev_lt g' hg' v u hup
  omega

/-- Gradient received by `u` from `backward` on `u / x` as the code builds it
(`self * (1.0 / rhs)`). -/
theorem divF_backward_grad (g : Graph) (u : Nat) (x : ℚ) (hb : Built g)
    (hu : u < g.length) :
    gradOf (backward (divF g u x).1 (divF g u x).2) u = 1 / x := by
  have hb1 : Built (divF g u x).1 :=
    Built.mul u (mkLeaf g (1 / x)).2 (Built.leaf (1 / x) hb)
      (by simp [mkLeaf]; omega) (by simp [mkLeaf])
  obtain ⟨hw1, hz1⟩ := built_wf_zeroGrads _ hb1
  have hidx : (divF g u x).2 = g.length + 1 := by simp [divF, mulF, mulOp, mkLeaf]
  have hG1eq : (divF g u x).1 = (g ++ [⟨1 / x, 0, .leaf⟩]) ++
      [⟨dataOf (g ++ [⟨1 / x, 0, .leaf⟩]) u * dataOf (g ++ [⟨1 / x, 0, .leaf⟩]) g.length,
        0, .mul u g.length⟩] := rfl
  have hLen : (divF g u x).1.length = g.length + 2 := by
    rw [hG1eq]
    simp
  have hop_t : opOf (divF g u x).1 (g.length + 1) = .mul u g.length := by
    rw [hG1eq]
    have h1 : g.length + 1 = (g ++ [(⟨1 / x, 0, .leaf⟩ : Node)]).length := by simp
    rw [h1, opOf_append_new]
  have hop_n : opOf (divF g u x).1 g.length = .leaf := by
    rw [hG1eq, opOf_append_old _ _ g.length (by simp), opOf_append_new]
  have hdata_n : dataOf (divF g u x).1 g.length = 1 / x := by
    rw [hG1eq, dataOf_append_old _ _ g.length (by simp), dataOf_append_new]
  have hprev_t : prevIds (divF g u x).1 (g.length + 1) = [u, g.length] := by
    unfold prevIds
    rw [hop_t]
    rfl
  have hprev_n : prevIds (divF g u x).1 g.length = [] := by
    unfold prevIds
    rw [hop_n]
    rfl
  have hnew : ∀ w, g.length ≤ w → w ≤ g.length + 1 →
      ∀ c ∈ prevIds (divF g u x).1 w, c < g.length → c = u := by
    intro w hw1 hw2 c hc hcn
    rcases (by omega : w = g.length ∨ w = g.length + 1) with h | h
    · subst h
      rw [hprev_n] at hc
      cases hc
    · subst h
      rw [hprev_t] at hc
      rcases List.mem_cons.mp hc with h' | h'
      · exact h'
      · rw [List.mem_singleton.mp h'] at hcn
        omega
  have hps : pathSum (divF g u x).1 (g.length + 1) u = dataOf (divF g u x).1 g.length * 1 := by
    rw [pathSum_rec _ hw1 (g.length + 1) u, if_neg (by omega : ¬ u = g.length + 1), hLen]
    have h2 : g.length + 2 = (g.length + 1) + 1 := rfl
    rw [h2, range_succ_sum, range_succ_sum]
    have hold : ((List.range g.length).map
        (fun v => localSum (divF g u x).1 v u * pathSum (divF g u x).1 (g.length + 1) v)).sum
        = 0 := by
      apply sum_range_zero_of
      intro v hv
      by_cases hvp : u ∈ prevIds (divF g u x).1 v
      · rw [pathSum_unreach _ (g.length + 1) v
          (old_consumer_kill _ hw1 u g.length (g.length + 1) hu (by omega) hnew v hv hvp),
          mul_zero]
      · rw [localSum_not_prev _ v u hvp, zero_mul]
    rw [hold, localSum_not_prev _ g.length u (by rw [hprev_n]; exact List.not_mem_nil u),
      localSum_mul_left _ (g.length + 1) u g.length hop_t (by omega),
      pathSum_self _ hw1 (g.length + 1)]
    ring
  rw [hidx, backward_pathSum _ hw1 hz1 (g.length + 1) (by rw [hLen]; omega) u, hps, hdata_n,
    mul_one]

theorem localSum_old_newtarget (g : Graph) (hg : WF g) (gext : Graph)
    (hprev_old : ∀ v, v < g.length → prevIds gext v = prevIds g v) (m : Nat)
    (hm : g.length ≤ m) : ∀ v, v < g.length → localSum gext v m = 0 := by
  intro v hv
  apply localSum_not_prev
  rw [hprev_old v hv]
  intro hmem
  have := wf_prev_lt g hg v m hmem
  omega

/-- Gradient received by `u` from `backward` on the spec's sugar reading of
`u / x`: wrap `x` as a fresh leaf, then apply node-node divide. -/
theorem divWrap_backward_grad (g : Graph) (u : Nat) (x : ℚ) (hb : Built g)
    (hu : u < g.length) :
    gradOf (backward (divOp (mkLeaf g x).1 u (mkLeaf g x).2).1
      (divOp (mkLeaf g x).1 u (mkLeaf g x).2).2) u = x ^ (-1 : Int) := by
  have hb1 : Built (divOp (mkLeaf g x).1 u (mkLeaf g x).2).1 :=
    Built.mul u (powOp (mkLeaf g x).1 (mkLeaf g x).2 (-1)).2
      (Built.pow (mkLeaf g x).2 (-1) (Built.leaf x hb) (by simp [mkLeaf]))
      (by simp [mkLeaf, powOp]; omega) (by simp [mkLeaf, powOp])
  obtain ⟨hw1, hz1⟩ := built_wf_zeroGrads _ hb1
  have hmk : (mkLeaf g x).1.length = g.length + 1 := by simp [mkLeaf]
  have hidx : (divOp (mkLeaf g x).1 u (mkLeaf g x).2).2 = g.length + 2 := by
    simp [divOp, powOp, mulOp, mkLeaf]
  have hG2 : (powOp (mkLeaf g x).1 (mkLeaf g x).2 (-1)).1 =
      (g ++ [⟨x, 0, .leaf⟩]) ++
        [⟨dataOf (g ++ [⟨x, 0, .leaf⟩]) g.length ^ (-1 : Int), 0, .pow g.length (-1)⟩] := rfl
  have hG1eq : (divOp (mkLeaf g x).1 u (mkLeaf g x).2).1 =
      (powOp (mkLeaf g x).1 (mkLeaf g x).2 (-1)).1 ++
        [⟨dataOf (powOp (mkLeaf g x).1 (mkLeaf g x).2 (-1)).1 u *
            dataOf (powOp (mkLeaf g x).1 (mkLeaf g x).2 (-1)).1 (mkLeaf g x).1.length, 0,
          .mul u (mkLeaf g x).1.length⟩] := rfl
  have hlenG2 : (powOp (mkLeaf g x).1 (mkLeaf g x).2 (-1)).1.length = g.length + 2 := by
    rw [hG2]
    simp
  have hLen : (divOp (mkLeaf g x).1 u (mkLeaf g x).2).1.length = g.length + 3 := by
    rw [hG1eq, List.length_append, hlenG2]
    rfl
  have hop_t : opOf (divOp (mkLeaf g x).1 u (mkLeaf g x).2).1 (g.length + 2) =
      .mul u (g.length + 1) := by
    rw [hG1eq]
    have h1 : g.length + 2 = (powOp (mkLeaf g x).1 (mkLeaf g x).2 (-1)).1.length :=
      hlenG2.symm
    rw [h1, opOf_append_new, hmk]
  have hop_p : opOf (divOp (mkLeaf g x).1 u (mkLeaf g x).2).1 (g.length + 1) =
      .pow g.length (-1) := by
    rw [hG1eq, opOf_append_old _ _ (g.length + 1) (by rw [hlenG2]; omega), hG2]
    have h1 : g.length + 1 = (g ++ [(⟨x, 0, .leaf⟩ : Node)]).length := by simp
    rw [h1, opOf_append_new]
  have hop_n : opOf (divOp (mkLeaf g x).1 u (mkLeaf g x).2).1 g.length = .leaf := by
    rw [hG1eq, opOf_append_old _ _ g.length (by rw [hlenG2]; omega), hG2,
      opOf_append_old _ _ g.length (by simp), opOf_append_new]
  have hdata_leaf : dataOf (g ++ [(⟨x, 0, .leaf⟩ : Node)]) g.length = x :=
    dataOf_append_new g _
  have hdata_p : dataOf (divOp (mkLeaf g x).1 u (mkLeaf g x).2).1 (g.length + 1) =
      x ^ (-1 : Int) := by
    rw [hG1eq, dataOf_append_old _ _ (g.length + 1) (by rw [hlenG2]; omega), hG2]
    have h1 : g.length + 1 = (g ++ [(⟨x, 0, .leaf⟩ : Node)]).length := by simp
    rw [h1, dataOf_append_new, hdata_leaf]
  have hprev_t : prevIds (divOp (mkLeaf g x).1 u (mkLeaf g x).2).1 (g.length + 2) =
      [u, g.length + 1] := by
    unfold prevIds
    rw [hop_t]
    rfl
  have hprev_p : prevIds (divOp (mkLeaf g x).1 u (mkLeaf g x).2).1 (g.length + 1) =
      [g.length] := by
    unfold prevIds
    rw [hop_p]
    rfl
  have hprev_n : prevIds (divOp (mkLeaf g x).1 u (mkLeaf g x).2).1 g.length = [] := by
    unfold prevIds
    rw [hop_n]
    rfl
  have hnew : ∀ w, g.length ≤ w → w ≤ g.length + 2 →
      ∀ c ∈ prevIds (divOp (mkLeaf g x).1 u (mkLeaf g x).2).1 w, c < g.length → c = u := by
    intro w hw1 hw2 c hc hcn
    rcases (by omega : w = g.length ∨ w = g.length + 1 ∨ w = g.length + 2) with h | h | h
    · subst h
      rw [hprev_n] at hc
      cases hc
    · subst h
      rw [hprev_p] at hc
      rw [List.mem_singleton.mp hc] at hcn
      omega
    · subst h
      rw [hprev_t] at hc
      rcases List.mem_cons.mp hc with h' | h'
      · exact h'
      · rw [List.mem_singleton.mp h'] at hcn
        omega
  have hps : pathSum (divOp (mkLeaf g x).1 u (mkLeaf g x).2).1 (g.length + 2) u =
      dataOf (divOp (mkLeaf g x).1 u (mkLeaf g x).2).1 (g.length + 1) * 1 := by
    rw [pathSum_rec _ hw1 (g.length + 2) u, if_neg (by omega : ¬ u = g.length + 2), hLen]
    have h2 : g.length + 3 = ((g.length + 1) + 1) + 1 := rfl
    rw [h2, range_succ_sum, range_succ_sum, range_succ_sum]
    have hold : ((List.range g.length).map
        (fun v => localSum (divOp (mkLeaf g x).1 u (mkLeaf g x).2).1 v u *
          pathSum (divOp (mkLeaf g x).1 u (mkLeaf g x).2).1 (g.length + 2) v)).sum = 0 := by
      apply sum_range_zero_of
      intro v hv
      by_cases hvp : u ∈ prevIds (divOp (mkLeaf g x).1 u (mkLeaf g x).2).1 v
      · rw [pathSum_unreach _ (g.length + 2) v
          (old_consumer_kill _ hw1 u g.length (g.length + 2) hu (by omega) hnew v hv hvp),
          mul_zero]
      · rw [localSum_not_prev _ v u hvp, zero_mul]
    rw [hold, localSum_not_prev _ g.length u (by rw [hprev_n]; exact List.not_mem_nil u),
      localSum_not_prev _ (g.length + 1) u (by
        rw [hprev_p]
        intro hmem
        rw [List.mem_singleton.mp hmem] at hu
        omega),
      localSum_mul_left _ (g.length + 2) u (g.length + 1) hop_t (by omega),
      pathSum_self _ hw1 (g.length + 2)]
    ring
  rw [hidx, backward_pathSum _ hw1 hz1 (g.length + 2) (by rw [hLen]; omega) u, hps, hdata_p,
    mul_one]

/-- Gradient received by `u` from `backward` on `x / u` as the code builds it
(`rhs.pow(-1.0) * self`, the float wrapped on the right of the multiply). -/
theorem fDiv_backward_grad (g : Graph) (u : Nat) (x : ℚ) (hb : Built g)
    (hu : u < g.length) :
    gradOf (backward (fDiv x g u).1 (fDiv x g u).2) u =
      ((-1 : ℤ) : ℚ) * dataOf g u ^ ((-1 : ℤ) - 1) * (x * 1) := by
  obtain ⟨hwg, _⟩ := built_wf_zeroGrads g hb
  have hb1 : Built (fDiv x g u).1 :=
    Built.mul (powOp g u (-1)).2 (mkLeaf (powOp g u (-1)).1 x).2
      (Built.leaf x (Built.pow u (-1) hb hu))
      (by simp [powOp, mkLeaf]) (by simp [powOp, mkLeaf])
  obtain ⟨hw1, hz1⟩ := built_wf_zeroGrads _ hb1
  have hp1 : (powOp g u (-1)).1.length = g.length + 1 := by simp [powOp]
  have hidx : (fDiv x g u).2 = g.length + 2 := by
    simp [fDiv, powOp, mulF, mulOp, mkLeaf]
  have hQ : (mkLeaf (powOp g u (-1)).1 x).1 =
      (g ++ [⟨dataOf g u ^ (-1 : Int), 0, .pow u (-1)⟩]) ++ [⟨x, 0, .leaf⟩] := rfl
  have hG1eq : (fDiv x g u).1 =
      (mkLeaf (powOp g u (-1)).1 x).1 ++
        [⟨dataOf (mkLeaf (powOp g u (-1)).1 x).1 (powOp g u (-1)).2 *
            dataOf (mkLeaf (powOp g u (-1)).1 x).1 (powOp g u (-1)).1.length, 0,
          .mul (powOp g u (-1)).2 (powOp g u (-1)).1.length⟩] := rfl
  have hlenQ : (mkLeaf (powOp g u (-1)).1 x).1.length = g.length + 2 := by
    rw [hQ]
    simp
  have hLen : (fDiv x g u).1.length = g.length + 3 := by
    rw [hG1eq, List.length_append, hlenQ]
    rfl
  have hop_t : opOf (fDiv x g u).1 (g.length + 2) = .mul g.length (g.length + 1) := by
    rw [hG1eq]
    have h1 : g.length + 2 = (mkLeaf (powOp g u (-1)).1 x).1.length := hlenQ.symm
    rw [h1, opOf_append_new]
    show Op.mul g.length (powOp g u (-1)).1.length = _
    rw [hp1]
  have hop_l : opOf (fDiv x g u).1 (g.length + 1) = .leaf := by
    rw [hG1eq, opOf_append_old _ _ (g.length + 1) (by rw [hlenQ]; omega), hQ]
    have h1 : g.length + 1 =
        (g ++ [(⟨dataOf g u ^ (-1 : Int), 0, .pow u (-1)⟩ : Node)]).length := by simp
    rw [h1, opOf_append_new]
  have hop_p : opOf (fDiv x g u).1 g.length = .pow u (-1) := by
    rw [hG1eq, opOf_append_old _ _ g.length (by rw [hlenQ]; omega), hQ,
      opOf_append_old _ _ g.length (by simp), opOf_append_new]
  have hdata_l : dataOf (fDiv x g u).1 (g.length + 1) = x := by
    rw [hG1eq, dataOf_append_old _ _ (g.length + 1) (by rw [hlenQ]; omega), hQ]
    have h1 : g.length + 1 =
        (g ++ [(⟨dataOf g u ^ (-1 : Int), 0, .pow u (-1)⟩ : Node)]).length := by simp
    rw [h1, dataOf_append_new]
  have hdata_u : dataOf (fDiv x g u).1 u = dataOf g u := by
    rw [hG1eq, dataOf_append_old _ _ u (by rw [hlenQ]; omega), hQ,
      dataOf_append_old _ _ u (by simp; omega), dataOf_append_old _ _ u hu]
  have hprev_t : prevIds (fDiv x g u).1 (g.length + 2) = [g.length, g.length + 1] := by
    unfold prevIds
    rw [hop_t]
    rfl
  have hprev_l : prevIds (fDiv x g u).1 (g.length + 1) = [] := by
    unfold prevIds
    rw [hop_l]
    rfl
  have hprev_p : prevIds (fDiv x g u).1 g.length = [u] := by
    unfold prevIds
    rw [hop_p]
    rfl
  have hprev_old : ∀ v, v < g.length → prevIds (fDiv x g u).1 v = prevIds g v := by
    intro v hv
    rw [hG1eq, prevIds_append_old _ _ v (by rw [hlenQ]; omega), hQ,
      prevIds_append_old _ _ v (by simp; omega), prevIds_append_old _ _ v hv]
  have hnew : ∀ w, g.length ≤ w → w ≤ g.length + 2 →
      ∀ c ∈ prevIds (fDiv x g u).1 w, c < g.length → c = u := by
    intro w hw1 hw2 c hc hcn
    rcases (by omega : w = g.length ∨ w = g.length + 1 ∨ w = g.length + 2) with h | h | h
    · subst h
      rw [hprev_p] at hc
      exact List.mem_singleton.mp hc
    · subst h
      rw [hprev_l] at hc
      cases hc
    · subst h
      rw [hprev_t] at hc
      rcases List.mem_cons.mp hc with h' | h'
      · omega
      · rw [List.mem_singleton.mp h'] at hcn
        omega
  have hps_p : pathSum (fDiv x g u).1 (g.length + 2) g.length =
      dataOf (fDiv x g u).1 (g.length + 1) * 1 := by
    rw [pathSum_rec _ hw1 (g.length + 2) g.length,
      if_neg (by omega : ¬ g.length = g.length + 2), hLen]
    have h2 : g.length + 3 = ((g.length + 1) + 1) + 1 := rfl
    rw [h2, range_succ_sum, range_succ_sum, range_succ_sum]
    have hold : ((List.range g.length).map
        (fun v => localSum (fDiv x g u).1 v g.length *
          pathSum (fDiv x g u).1 (g.length + 2) v)).sum = 0 := by
      apply sum_range_zero_of
      intro v hv
      rw [localSum_old_newtarget g hwg _ hprev_old g.length (le_refl _) v hv, zero_mul]
    rw [hold, localSum_not_prev _ g.length g.length (by
        rw [hprev_p]
        intro hmem
        rw [List.mem_singleton.mp hmem] at hu
        omega),
      localSum_not_prev _ (g.length + 1) g.length
        (by rw [hprev_l]; exact List.not_mem_nil _),
      localSum_mul_left _ (g.length + 2) g.length (g.length + 1) hop_t (by omega),
      pathSum_self _ hw1 (g.length + 2)]
    ring
  have hps_u : pathSum (fDiv x g u).1 (g.length + 2) u =
      ((-1 : ℤ) : ℚ) * dataOf (fDiv x g u).1 u ^ ((-1 : ℤ) - 1) *
        (dataOf (fDiv x g u).1 (g.length + 1) * 1) := by
    rw [pathSum_rec _ hw1 (g.length + 2) u, if_neg (by omega : ¬ u = g.length + 2), hLen]
    have h2 : g.length + 3 = ((g.length + 1) + 1) + 1 := rfl
    rw [h2, range_succ_sum, range_succ_sum, range_succ_sum]
    have hold : ((List.range g.length).map
        (fun v => localSum (fDiv x g u).1 v u *
          pathSum (fDiv x g u).1 (g.length + 2) v)).sum = 0 := by
      apply sum_range_zero_of
      intro v hv
      by_cases hvp : u ∈ prevIds (fDiv x g u).1 v
      · rw [pathSum_unreach _ (g.length + 2) v
          (old_consumer_kill _ hw1 u g.length (g.length + 2) hu (by omega) hnew v hv hvp),
          mul_zero]
      · rw [localSum_not_prev _ v u hvp, zero_mul]
    rw [hold, localSum_pow_base _ g.length u (-1) hop_p, hps_p,
      localSum_not_prev _ (g.length + 1) u (by rw [hprev_l]; exact List.not_mem_nil _),
      localSum_not_prev _ (g.length + 2) u (by
        rw [hprev_t]
        intro hmem
        rcases List.mem_cons.mp hmem with h' | h'
        · omega
        · rw [List.mem_singleton.mp h'] at hu
          omega)]
    ring
  rw [hidx, backward_pathSum _ hw1 hz1 (g.length + 2) (by rw [hLen]; omega) u, hps_u,
    hdata_u, hdata_l]

/-- Gradient received by `u` from `backward` on the spec's sugar reading of
`x / u`: wrap `x` as a fresh leaf, then apply node-node divide with the leaf
as numerator. -/
theorem fDivWrap_backward_grad (g : Graph) (u : Nat) (x : ℚ) (hb : Built g)
    (hu : u < g.length) :
    gradOf (backward (divOp (mkLeaf g x).1 (mkLeaf g x).2 u).1
      (divOp (mkLeaf g x).1 (mkLeaf g x).2 u).2) u =
      ((-1 : ℤ) : ℚ) * dataOf g u ^ ((-1 : ℤ) - 1) * (x * 1) := by
  obtain ⟨hwg, _⟩ := built_wf_zeroGrads g hb
  have hb1 : Built (divOp (mkLeaf g x).1 (mkLeaf g x).2 u).1 :=
    Built.mul (mkLeaf g x).2 (powOp (mkLeaf g x).1 u (-1)).2
      (Built.pow u (-1) (Built.leaf x hb) (by simp [mkLeaf]; omega))
      (by simp [mkLeaf, powOp]) (by simp [mkLeaf, powOp])
  obtain ⟨hw1, hz1⟩ := built_wf_zeroGrads _ hb1
  have hmk : (mkLeaf g x).1.length = g.length + 1 := by simp [mkLeaf]
  have hidx : (divOp (mkLeaf g x).1 (mkLeaf g x).2 u).2 = g.length + 2 := by
    simp [divOp, powOp, mulOp, mkLeaf]
  have hG2 : (powOp (mkLeaf g x).1 u (-1)).1 =
      (g ++ [⟨x, 0, .leaf⟩]) ++
        [⟨dataOf (g ++ [⟨x, 0, .leaf⟩]) u ^ (-1 : Int), 0, .pow u (-1)⟩] := rfl
  have hG1eq : (divOp (mkLeaf g x).1 (mkLeaf g x).2 u).1 =
      (powOp (mkLeaf g x).1 u (-1)).1 ++
        [⟨dataOf (powOp (mkLeaf g x).1 u (-1)).1 g.length *
            dataOf (powOp (mkLeaf g x).1 u (-1)).1 (mkLeaf g x).1.length, 0,
          .mul g.length (mkLeaf g x).1.length⟩] := rfl
  have hlenG2 : (powOp (mkLeaf g x).1 u (-1)).1.length = g.length + 2 := by
    rw [hG2]
    simp
  have hLen : (divOp (mkLeaf g x).1 (mkLeaf g x).2 u).1.length = g.length + 3 := by
    rw [hG1eq, List.length_append, hlenG2]
    rfl
  have hop_t : opOf (divOp (mkLeaf g x).1 (mkLeaf g x).2 u).1 (g.length + 2) =
      .mul g.length (g.length + 1) := by
    rw [hG1eq]
    have h1 : g.length + 2 = (powOp (mkLeaf g x).1 u (-1)).1.length := hlenG2.symm
    rw [h1, opOf_append_new, hmk]
  have hop_p : opOf (divOp (mkLeaf g x).1 (mkLeaf g x).2 u).1 (g.length + 1) =
      .pow u (-1) := by
    rw [hG1eq, opOf_append_old _ _ (g.length + 1) (by rw [hlenG2]; omega), hG2]
    have h1 : g.length + 1 = (g ++ [(⟨x, 0, .leaf⟩ : Node)]).length := by simp
    rw [h1, opOf_append_new]
  have hop_n : opOf (divOp (mkLeaf g x).1 (mkLeaf g x).2 u).1 g.length = .leaf := by
    rw [hG1eq, opOf_append_old _ _ g.length (by rw [hlenG2]; omega), hG2,
      opOf_append_old _ _ g.length (by simp), opOf_append_new]
  have hdata_n : dataOf (divOp (mkLeaf g x).1 (mkLeaf g x).2 u).1 g.length = x := by
    rw [hG1eq, dataOf_append_old _ _ g.length (by rw [hlenG2]; omega), hG2,
      dataOf_append_old _ _ g.length (by simp), dataOf_append_new]
  have hdata_u : dataOf (divOp (mkLeaf g x).1 (mkLeaf g x).2 u).1 u = dataOf g u := by
    rw [hG1eq, dataOf_append_old _ _ u (by rw [hlenG2]; omega), hG2,
      dataOf_append_old _ _ u (by simp; omega), dataOf_append_old _ _ u hu]
  have hprev_t : prevIds (divOp (mkLeaf g x).1 (mkLeaf g x).2 u).1 (g.length + 2) =
      [g.length, g.length + 1] := by
    unfold prevIds
    rw [hop_t]
    rfl
  have hprev_p : prevIds (divOp (mkLeaf g x).1 (mkLeaf g x).2 u).1 (g.length + 1) = [u] := by
    unfold prevIds
    rw [hop_p]
    rfl
  have hprev_n : prevIds (divOp (mkLeaf g x).1 (mkLeaf g x).2 u).1 g.length = [] := by
    unfold prevIds
    rw [hop_n]
    rfl
  have hprev_old : ∀ v, v < g.length →
      prevIds (divOp (mkLeaf g x).1 (mkLeaf g x).2 u).1 v = prevIds g v := by
    intro v hv
    rw [hG1eq, prevIds_append_old _ _ v (by rw [hlenG2]; omega), hG2,
      prevIds_append_old _ _ v (by simp; omega), prevIds_append_old _ _ v hv]
  have hnew : ∀ w, g.length ≤ w → w ≤ g.length + 2 →
      ∀ c ∈ prevIds (divOp (mkLeaf g x).1 (mkLeaf g x).2 u).1 w, c < g.length → c = u := by
    intro w hw1 hw2 c hc hcn
    rcases (by omega : w = g.length ∨ w = g.length + 1 ∨ w = g.length + 2) with h | h | h
    · subst h
      rw [hprev_n] at hc
      cases hc
    · subst h
      rw [hprev_p] at hc
      exact List.mem_singleton.mp hc
    · subst h
      rw [hprev_t] at hc
      rcases List.mem_cons.mp hc with h' | h'
      · omega
      · rw [List.mem_singleton.mp h'] at hcn
        omega
  have hps_p : pathSum (divOp (mkLeaf g x).1 (mkLeaf g x).2 u).1 (g.length + 2)
      (g.length + 1) = dataOf (divOp (mkLeaf g x).1 (mkLeaf g x).2 u).1 g.length * 1 := by
    rw [pathSum_rec _ hw1 (g.length + 2) (g.length + 1),
      if_neg (by omega : ¬ g.length + 1 = g.length + 2), hLen]
    have h2 : g.length + 3 = ((g.length + 1) + 1) + 1 := rfl
    rw [h2, range_succ_sum, range_succ_sum, range_succ_sum]
    have hold : ((List.range g.length).map
        (fun v => localSum (divOp (mkLeaf g x).1 (mkLeaf g x).2 u).1 v (g.length + 1) *
          pathSum (divOp (mkLeaf g x).1 (mkLeaf g x).2 u).1 (g.length + 2) v)).sum = 0 := by
      apply sum_range_zero_of
      intro v hv
      rw [localSum_old_newtarget g hwg _ hprev_old (g.length + 1) (by omega) v hv, zero_mul]
    rw [hold, localSum_not_prev _ g.length (g.length + 1)
        (by rw [hprev_n]; exact List.not_mem_nil _),
      localSum_not_prev _ (g.length + 1) (g.length + 1) (by
        rw [hprev_p]
        intro hmem
        have := List.mem_singleton.mp hmem
        omega),
      localSum_mul_right _ (g.length + 2) g.length (g.length + 1) hop_t (by omega),
      pathSum_self _ hw1 (g.length + 2)]
    ring
  have hps_u : pathSum (divOp (mkLeaf g x).1 (mkLeaf g x).2 u).1 (g.length + 2) u =
      ((-1 : ℤ) : ℚ) * dataOf (divOp (mkLeaf g x).1 (mkLeaf g x).2 u).1 u ^ ((-1 : ℤ) - 1) *
        (dataOf (divOp (mkLeaf g x).1 (mkLeaf g x).2 u).1 g.length * 1) := by
    rw [pathSum_rec _ hw1 (g.length + 2) u, if_neg (by omega : ¬ u = g.length + 2), hLen]
    have h2 : g.length + 3 = ((g.length + 1) + 1) + 1 := rfl
    rw [h2, range_succ_sum, range_succ_sum, range_succ_sum]
    have hold : ((List.range g.length).map
        (fun v => localSum (divOp (mkLeaf g x).1 (mkLeaf g x).2 u).1 v u *
          pathSum (divOp (mkLeaf g x).1 (mkLeaf g x).2 u).1 (g.length + 2) v)).sum = 0 := by
      apply sum_range_zero_of
      intro v hv
      by_cases hvp : u ∈ prevIds (divOp (mkLeaf g x).1 (mkLeaf g x).2 u).1 v
      · rw [pathSum_unreach _ (g.length + 2) v
          (old_consumer_kill _ hw1 u g.length (g.length + 2) hu (by omega) hnew v hv hvp),
          mul_zero]
      · rw [localSum_not_prev _ v u hvp, zero_mul]
    rw [hold, localSum_not_prev _ g.length u (by rw [hprev_n]; exact List.not_mem_nil _),
      localSum_pow_base _ (g.length + 1) u (-1) hop_p, hps_p,
      localSum_not_prev _ (g.length + 2) u (by
        rw [hprev_t]
        intro hmem
        rcases List.mem_cons.mp hmem with h' | h'
        · omega
        · rw [List.mem_singleton.mp h'] at hu
          omega)]
    ring
  rw [hidx, backward_pathSum _ hw1 hz1 (g.length + 2) (by rw [hLen]; omega) u, hps_u,
    hdata_u, hdata_n]

theorem divF_data (g : Graph) (u : Nat) (x : ℚ) (hu : u < g.length) :
    dataOf (divF g u x).1 (divF g u x).2 = dataOf g u * (1 / x) := by
  have h1 : (divF g u x).1 = (g ++ [⟨1 / x, 0, .leaf⟩]) ++
      [⟨dataOf (g ++ [⟨1 / x, 0, .leaf⟩]) u * dataOf (g ++ [⟨1 / x, 0, .leaf⟩]) g.length,
        0, .mul u g.length⟩] := rfl
  have h2 : (divF g u x).2 = g.length + 1 := by simp [divF, mulF, mulOp, mkLeaf]
  rw [h1, h2]
  have h3 : g.length + 1 = (g ++ [(⟨1 / x, 0, .leaf⟩ : Node)]).length := by simp
  rw [h3, dataOf_append_new]
  show dataOf (g ++ [(⟨1 / x, 0, .leaf⟩ : Node)]) u *
    dataOf (g ++ [(⟨1 / x, 0, .leaf⟩ : Node)]) g.length = _
  rw [dataOf_append_old g _ u hu, dataOf_append_new]

theorem divWrap_data (g : Graph) (u : Nat) (x : ℚ) (hu : u < g.length) :
    dataOf (divOp (mkLeaf g x).1 u (mkLeaf g x).2).1
      (divOp (mkLeaf g x).1 u (mkLeaf g x).2).2 = dataOf g u * x ^ (-1 : Int) := by
  have hmk : (mkLeaf g x).1.length = g.length + 1 := by simp [mkLeaf]
  have hG2 : (powOp (mkLeaf g x).1 (mkLeaf g x).2 (-1)).1 =
      (g ++ [⟨x, 0, .leaf⟩]) ++
        [⟨dataOf (g ++ [⟨x, 0, .leaf⟩]) g.length ^ (-1 : Int), 0, .pow g.length (-1)⟩] := rfl
  have hG1eq : (divOp (mkLeaf g x).1 u (mkLeaf g x).2).1 =
      (powOp (mkLeaf g x).1 (mkLeaf g x).2 (-1)).1 ++
        [⟨dataOf (powOp (mkLeaf g x).1 (mkLeaf g x).2 (-1)).1 u *
            dataOf (powOp (mkLeaf g x).1 (mkLeaf g x).2 (-1)).1 (mkLeaf g x).1.length, 0,
          .mul u (mkLeaf g x).1.length⟩] := rfl
  have hlenG2 : (powOp (mkLeaf g x).1 (mkLeaf g x).2 (-1)).1.length = g.length + 2 := by
    rw [hG2]
    simp
  have h2 : (divOp (mkLeaf g x).1 u (mkLeaf g x).2).2 = g.length + 2 := by
    simp [divOp, powOp, mulOp, mkLeaf]
  rw [hG1eq, h2, (by rw [hlenG2] :
    (powOp (mkLeaf g x).1 (mkLeaf g x).2 (-1)).1.length = g.length + 2).symm,
    dataOf_append_new]
  show dataOf (powOp (mkLeaf g x).1 (mkLeaf g x).2 (-1)).1 u *
    dataOf (powOp (mkLeaf g x).1 (mkLeaf g x).2 (-1)).1 (mkLeaf g x).1.length = _
  rw [hmk]
  have h3 : g.length + 1 = (g ++ [(⟨x, 0, .leaf⟩ : Node)]).length := by simp
  rw [hG2, dataOf_append_old _ _ u (by simp; omega), dataOf_append_old _ _ u hu,
    h3, dataOf_append_new]
  show dataOf g u * (dataOf (g ++ [(⟨x, 0, .leaf⟩ : Node)]) g.length ^ (-1 : Int)) = _
  rw [dataOf_append_new]

theorem fDiv_data (g : Graph) (u : Nat) (x : ℚ) (hu : u < g.length) :
    dataOf (fDiv x g u).1 (fDiv x g u).2 = dataOf g u ^ (-1 : Int) * x := by
  have hp1 : (powOp g u (-1)).1.length = g.length + 1 := by simp [powOp]
  have hQ : (mkLeaf (powOp g u (-1)).1 x).1 =
      (g ++ [⟨dataOf g u ^ (-1 : Int), 0, .pow u (-1)⟩]) ++ [⟨x, 0, .leaf⟩] := rfl
  have hG1eq : (fDiv x g u).1 =
      (mkLeaf (powOp g u (-1)).1 x).1 ++
        [⟨dataOf (mkLeaf (powOp g u (-1)).1 x).1 (powOp g u (-1)).2 *
            dataOf (mkLeaf (powOp g u (-1)).1 x).1 (powOp g u (-1)).1.length, 0,
          .mul (powOp g u (-1)).2 (powOp g u (-1)).1.length⟩] := rfl
  have hlenQ : (mkLeaf (powOp g u (-1)).1 x).1.length = g.length + 2 := by
    rw [hQ]
    simp
  have h2 : (fDiv x g u).2 = g.length + 2 := by simp [fDiv, powOp, mulF, mulOp, mkLeaf]
  rw [hG1eq, h2, (by rw [hlenQ] :
    (mkLeaf (powOp g u (-1)).1 x).1.length = g.length + 2).symm, dataOf_append_new]
  show dataOf (mkLeaf (powOp g u (-1)).1 x).1 g.length *
    dataOf (mkLeaf (powOp g u (-1)).1 x).1 (powOp g u (-1)).1.length = _
  rw [hp1]
  have h3 : g.length + 1 =
      (g ++ [(⟨dataOf g u ^ (-1 : Int), 0, .pow u (-1)⟩ : Node)]).length := by simp
  rw [hQ, dataOf_append_old _ _ g.length (by simp), dataOf_append_new, h3, dataOf_append_new]

theorem fDivWrap_data (g : Graph) (u : Nat) (x : ℚ) (hu : u < g.length) :
    dataOf (divOp (mkLeaf g x).1 (mkLeaf g x).2 u).1
      (divOp (mkLeaf g x).1 (mkLeaf g x).2 u).2 = x * dataOf g u ^ (-1 : Int) := by
  have hmk : (mkLeaf g x).1.length = g.length + 1 := by simp [mkLeaf]
  have hG2 : (powOp (mkLeaf g x).1 u (-1)).1 =
      (g ++ [⟨x, 0, .leaf⟩]) ++
        [⟨dataOf (g ++ [⟨x, 0, .leaf⟩]) u ^ (-1 : Int), 0, .pow u (-1)⟩] := rfl
  have hG1eq : (divOp (mkLeaf g x).1 (mkLeaf g x).2 u).1 =
      (powOp (mkLeaf g x).1 u (-1)).1 ++
        [⟨dataOf (powOp (mkLeaf g x).1 u (-1)).1 g.length *
            dataOf (powOp (mkLeaf g x).1 u (-1)).1 (mkLeaf g x).1.length, 0,
          .mul g.length (mkLeaf g x).1.length⟩] := rfl
  have hlenG2 : (powOp (mkLeaf g x).1 u (-1)).1.length = g.length + 2 := by
    rw [hG2]
    simp
  have h2 : (divOp (mkLeaf g x).1 (mkLeaf g x).2 u).2 = g.length + 2 := by
    simp [divOp, powOp, mulOp, mkLeaf]
  rw [hG1eq, h2, (by rw [hlenG2] :
    (powOp (mkLeaf g x).1 u (-1)).1.length = g.length + 2).symm, dataOf_append_new]
  show dataOf (powOp (mkLeaf g x).1 u (-1)).1 g.length *
    dataOf (powOp (mkLeaf g x).1 u (-1)).1 (mkLeaf g x).1.length = _
  rw [hmk]
  have h3 : g.length + 1 = (g ++ [(⟨x, 0, .leaf⟩ : Node)]).length := by simp
  rw [hG2, dataOf_append_old _ _ g.length (by simp), dataOf_append_new, h3, dataOf_append_new]
  show x * dataOf (g ++ [(⟨x, 0, .leaf⟩ : Node)]) u ^ (-1 : Int) = _
  rw [dataOf_append_old _ _ u hu]

/-- C7: combining a node with a plain float is sugar for wrapping the float
as a fresh leaf and applying the node-node operator.  For `Add<f32>` and
`Mul<f32>` the produced graph is literally that composition.  For `Div<f32>`
(`node / x`, implemented as `self * (1.0/x)`) and `Div<Value> for f32`
(`x / node`, implemented as `node.pow(-1.0) * wrap(x)`), the produced node
has the same forward data as the wrap-then-divide composition, and the node
receives the same gradient from a subsequent backward pass. -/
theorem claim_C7_float_sugar (g : Graph) (u : Nat) (x : ℚ) (hb : Built g)
    (hu : u < g.length) :
    addF g u x = addOp (mkLeaf g x).1 u (mkLeaf g x).2 ∧
    mulF g u x = mulOp (mkLeaf g x).1 u (mkLeaf g x).2 ∧
    dataOf (divF g u x).1 (divF g u x).2 =
      dataOf (divOp (mkLeaf g x).1 u (mkLeaf g x).2).1
        (divOp (mkLeaf g x).1 u (mkLeaf g x).2).2 ∧
    gradOf (backward (divF g u x).1 (divF g u x).2) u =
      gradOf (backward (divOp (mkLeaf g x).1 u (mkLeaf g x).2).1
        (divOp (mkLeaf g x).1 u (mkLeaf g x).2).2) u ∧
    dataOf (fDiv x g u).1 (fDiv x g u).2 =
      dataOf (divOp (mkLeaf g x).1 (mkLeaf g x).2 u).1
        (divOp (mkLeaf g x).1 (mkLeaf g x).2 u).2 ∧
    gradOf (backward (fDiv x g u).1 (fDiv x g u).2) u =
      gradOf (backward (divOp (mkLeaf g x).1 (mkLeaf g x).2 u).1
        (divOp (mkLeaf g x).1 (mkLeaf g x).2 u).2) u := by
  refine ⟨rfl, rfl, ?_, ?_, ?_, ?_⟩
  · rw [divF_data g u x hu, divWrap_data g u x hu, one_div, ← zpow_neg_one]
  · rw [divF_backward_grad g u x hb hu, divWrap_backward_grad g u x hb hu, one_div,
      ← zpow_neg_one]
  · rw [fDiv_data g u x hu, fDivWrap_data g u x hu, mul_comm]
  · rw [fDiv_backward_grad g u x hb hu, fDivWrap_backward_grad g u x hb hu]

/-- C7 witness: a one-leaf base graph, `u = leaf 2`, `x = 4`. -/
theorem claim_C7_float_sugar_witness :
    (Built (mkLeaf [] 2).1 ∧ (0 : Nat) < (mkLeaf [] 2).1.length) ∧
    (addF (mkLeaf [] 2).1 0 4 =
        addOp (mkLeaf (mkLeaf [] 2).1 4).1 0 (mkLeaf (mkLeaf [] 2).1 4).2 ∧
      mulF (mkLeaf [] 2).1 0 4 =
        mulOp (mkLeaf (mkLeaf [] 2).1 4).1 0 (mkLeaf (mkLeaf [] 2).1 4).2 ∧
      dataOf (divF (mkLeaf [] 2).1 0 4).1 (divF (mkLeaf [] 2).1 0 4).2 =
        dataOf (divOp (mkLeaf (mkLeaf [] 2).1 4).1 0 (mkLeaf (mkLeaf [] 2).1 4).2).1
          (divOp (mkLeaf (mkLeaf [] 2).1 4).1 0 (mkLeaf (mkLeaf [] 2).1 4).2).2 ∧
      gradOf (backward (divF (mkLeaf [] 2).1 0 4).1 (divF (mkLeaf [] 2).1 0 4).2) 0 =
        gradOf (backward (divOp (mkLeaf (mkLeaf [] 2).1 4).1 0 (mkLeaf (mkLeaf [] 2).1 4).2).1
          (divOp (mkLeaf (mkLeaf [] 2).1 4).1 0 (mkLeaf (mkLeaf [] 2).1 4).2).2) 0 ∧
      dataOf (fDiv 4 (mkLeaf [] 2).1 0).1 (fDiv 4 (mkLeaf [] 2).1 0).2 =
        dataOf (divOp (mkLeaf (mkLeaf [] 2).1 4).1 (mkLeaf (mkLeaf [] 2).1 4).2 0).1
          (divOp (mkLeaf (mkLeaf [] 2).1 4).1 (mkLeaf (mkLeaf [] 2).1 4).2 0).2 ∧
      gradOf (backward (fDiv 4 (mkLeaf [] 2).1 0).1 (fDiv 4 (mkLeaf [] 2).1 0).2) 0 =
        gradOf (backward (divOp (mkLeaf (mkLeaf [] 2).1 4).1 (mkLeaf (mkLeaf [] 2).1 4).2 0).1
          (divOp (mkLeaf (mkLeaf [] 2).1 4).1 (mkLeaf (mkLeaf [] 2).1 4).2 0).2) 0) :=
  ⟨⟨Built.leaf 2 Built.nil, by decide⟩,
    claim_C7_float_sugar (mkLeaf [] 2).1 0 4 (Built.leaf 2 Built.nil) (by decide)⟩

/-! ### zero_grad followed by backward equals backward on a fresh graph -/

/-- One graph-construction step over already-existing nodes: the public
constructors of the engine. -/
inductive BStep where
  | leaf : ℚ → BStep
  | add : Nat → Nat → BStep
  | mul : Nat → Nat → BStep
  | pow : Nat → Int → BStep
  | relu : Nat → BStep

/-- Apply one construction step (forward construction is eager: the new
node's data is computed immediately from the current graph). -/
def applyStep (g : Graph) : BStep → Graph
  | .leaf q => (mkLeaf g q).1
  | .add a b => (addOp g a b).1
  | .mul a b => (mulOp g a b).1
  | .pow a k => (powOp g a k).1
  | .relu a => (reluOp g a).1

/-- Rebuild a whole expression over an existing parameter prefix. -/
def applySteps (g : Graph) (l : List BStep) : Graph := l.foldl applyStep g

/-- A parameter prefix: leaf nodes with given data and (possibly dirty,
left over from earlier backward passes) gradients. -/
def mkParams (ps : List (ℚ × ℚ)) : Graph := ps.map (fun p => ⟨p.1, p.2, .leaf⟩)

/-- `Module::zero_grad`: set the gradient of every listed parameter to 0. -/
def zeroGradIds (g : Graph) (l : List Nat) : Graph :=
  l.foldl (fun h i => setGrad h i 0) g

theorem gradOf_zeroGradIds (l : List Nat) : ∀ (g : Graph) (i : Nat),
    gradOf (zeroGradIds g l) i = if i ∈ l then 0 else gradOf g i := by
  induction l with
  | nil =>
    intro g i
    rw [if_neg (List.not_mem_nil i)]
    rfl
  | cons j l ih =>
    intro g i
    show gradOf (zeroGradIds (setGrad g j 0) l) i = _
    rw [ih]
    by_cases hil : i ∈ l
    · rw [if_pos hil, if_pos (List.mem_cons_of_mem j hil)]
    · rw [if_neg hil, gradOf_setGrad]
      by_cases hij : i = j
      · subst hij
        by_cases hlen : i < g.length
        · rw [if_pos ⟨rfl, hlen⟩, if_pos (List.mem_cons_self i l)]
        · rw [if_neg (fun h => hlen h.2), if_pos (List.mem_cons_self i l),
            gradOf_oob g i (le_of_not_lt hlen)]
      · rw [if_neg (fun h => hij h.1), if_neg (by
          intro h
          rcases List.mem_cons.mp h with h' | h'
          · exact hij h'
          · exact hil h')]

theorem length_zeroGradIds (l : List Nat) : ∀ g : Graph,
    (zeroGradIds g l).length = g.length := by
  induction l with
  | nil => intro g; rfl
  | cons j l ih =>
    intro g
    show (zeroGradIds (setGrad g j 0) l).length = _
    rw [ih, length_setGrad]

theorem dataOf_zeroGradIds (l : List Nat) : ∀ (g : Graph) (i : Nat),
    dataOf (zeroGradIds g l) i = dataOf g i := by
  induction l with
  | nil => intro g i; rfl
  | cons j l ih =>
    intro g i
    show dataOf (zeroGradIds (setGrad g j 0) l) i = _
    rw [ih]
    exact dataOf_updGrad g j _ i

theorem opOf_zeroGradIds (l : List Nat) : ∀ (g : Graph) (i : Nat),
    opOf (zeroGradIds g l) i = opOf g i := by
  induction l with
  | nil => intro g i; rfl
  | cons j l ih =>
    intro g i
    show opOf (zeroGradIds (setGrad g j 0) l) i = _
    rw [ih]
    exact opOf_updGrad g j _ i

theorem node_eq (a b : Node) (hd : a.data = b.data) (hg : a.grad = b.grad)
    (ho : a.op = b.op) : a = b := by
  cases a
  cases b
  simp_all

theorem graph_ext (A B : Graph) (hl : A.length = B.length)
    (h : ∀ i, i < A.length → nodeAt A i = nodeAt B i) : A = B := by
  apply List.ext_getElem?
  intro i
  by_cases hi : i < A.length
  · have hi2 : i < B.length := hl ▸ hi
    have h2 := h i hi
    unfold nodeAt at h2
    rw [List.getElem?_eq_getElem hi, List.getElem?_eq_getElem hi2] at h2
    simp at h2
    rw [List.getElem?_eq_getElem hi, List.getElem?_eq_getElem hi2, h2]
  · rw [List.getElem?_eq_none (le_of_not_lt hi),
      List.getElem?_eq_none (by rw [← hl]; exact le_of_not_lt hi)]

/-- The dirty/fresh correspondence between two graphs: same structure (length,
data, operations), gradients agree except on the first `n` (parameter) cells,
where the fresh graph is zero. -/
def DirtyFresh (n : Nat) (g₁ g₂ : Graph) : Prop :=
  g₁.length = g₂.length ∧
  (∀ i, dataOf g₁ i = dataOf g₂ i ∧ opOf g₁ i = opOf g₂ i) ∧
  (∀ i, gradOf g₂ i = if i < n then 0 else gradOf g₁ i) ∧
  n ≤ g₁.length

theorem append_one_dirtyFresh (n : Nat) (g₁ g₂ : Graph) (h : DirtyFresh n g₁ g₂)
    (a b : Node) (hd : a.data = b.data) (ho : a.op = b.op) (hg1 : a.grad = 0)
    (hg2 : b.grad = 0) : DirtyFresh n (g₁ ++ [a]) (g₂ ++ [b]) := by
  obtain ⟨hl, hdo, hgr, hn⟩ := h
  refine ⟨by simp [hl], ?_, ?_, by rw [List.length_append]; omega⟩
  · intro i
    by_cases hi : i < g₁.length
    · rw [dataOf_append_old _ _ i hi, dataOf_append_old _ _ i (hl ▸ hi),
        opOf_append_old _ _ i hi, opOf_append_old _ _ i (hl ▸ hi)]
      exact hdo i
    · by_cases hieq : i = g₁.length
      · subst hieq
        unfold dataOf opOf
        rw [nodeAt_append_new]
        rw [(by rw [hl] : g₁.length = g₂.length), nodeAt_append_new]
        exact ⟨hd, ho⟩
      · have hgt : (g₁ ++ [a]).length ≤ i := by
          rw [List.length_append]
          simp
          omega
        have hgt2 : (g₂ ++ [b]).length ≤ i := by
          rw [List.length_append]
          simp
          omega
        unfold dataOf opOf nodeAt
        rw [List.getElem?_eq_none hgt, List.getElem?_eq_none hgt2]
        exact ⟨rfl, rfl⟩
  · intro i
    by_cases hi : i < g₁.length
    · rw [gradOf_append_old _ _ i (hl ▸ hi), gradOf_append_old _ _ i hi]
      exact hgr i
    · by_cases hieq : i = g₁.length
      · subst hieq
        unfold gradOf
        rw [(by rw [hl] : g₁.length = g₂.length), nodeAt_append_new]
        rw [if_neg (by omega)]
        conv_rhs => rw [← (by rw [hl] : g₁.length = g₂.length)]
        unfold gradOf at *
        rw [nodeAt_append_new, hg1, hg2]
      · have hgt : (g₁ ++ [a]).length ≤ i := by
          rw [List.length_append]
          simp
          omega
        have hgt2 : (g₂ ++ [b]).length ≤ i := by
          rw [List.length_append]
          simp
          omega
        rw [gradOf_oob _ i hgt, gradOf_oob _ i hgt2, if_neg (by omega)]

theorem applyStep_dirtyFresh (n : Nat) (g₁ g₂ : Graph) (h : DirtyFresh n g₁ g₂)
    (s : BStep) : DirtyFresh n (applyStep g₁ s) (applyStep g₂ s) := by
  cases s with
  | leaf q => exact append_one_dirtyFresh n g₁ g₂ h _ _ rfl rfl rfl rfl
  | add a b =>
    exact append_one_dirtyFresh n g₁ g₂ h _ _
      (by show dataOf g₁ a + dataOf g₁ b = dataOf g₂ a + dataOf g₂ b
          rw [(h.2.1 a).1, (h.2.1 b).1]) rfl rfl rfl
  | mul a b =>
    exact append_one_dirtyFresh n g₁ g₂ h _ _
      (by show dataOf g₁ a * dataOf g₁ b = dataOf g₂ a * dataOf g₂ b
          rw [(h.2.1 a).1, (h.2.1 b).1]) rfl rfl rfl
  | pow a k =>
    exact append_one_dirtyFresh n g₁ g₂ h _ _
      (by show dataOf g₁ a ^ k = dataOf g₂ a ^ k
          rw [(h.2.1 a).1]) rfl rfl rfl
  | relu a =>
    exact append_one_dirtyFresh n g₁ g₂ h _ _
      (by show (if 0 ≤ dataOf g₁ a then dataOf g₁ a else 0) =
            (if 0 ≤ dataOf g₂ a then dataOf g₂ a else 0)
          rw [(h.2.1 a).1]) rfl rfl rfl

theorem applySteps_dirtyFresh (n : Nat) (steps : List BStep) :
    ∀ g₁ g₂, DirtyFresh n g₁ g₂ →
      DirtyFresh n (applySteps g₁ steps) (applySteps g₂ steps) := by
  induction steps with
  | nil => intro g₁ g₂ h; exact h
  | cons s steps ih =>
    intro g₁ g₂ h
    exact ih (applyStep g₁ s) (applyStep g₂ s) (applyStep_dirtyFresh n g₁ g₂ h s)

theorem mkParams_dirtyFresh (ps : List (ℚ × ℚ)) :
    DirtyFresh ps.length (mkParams ps) (mkParams (ps.map (fun p => (p.1, 0)))) := by
  have hget : ∀ i : Nat, (mkParams ps)[i]? =
      (ps[i]?).map (fun p : ℚ × ℚ => (⟨p.1, p.2, .leaf⟩ : Node)) :=
    fun i => List.getElem?_map _ ps i
  have hget2 : ∀ i : Nat, (mkParams (ps.map (fun p => (p.1, 0))))[i]? =
      (ps[i]?).map (fun p : ℚ × ℚ => (⟨p.1, 0, .leaf⟩ : Node)) := by
    intro i
    unfold mkParams
    rw [List.map_map, List.getElem?_map]
    cases ps[i]? <;> rfl
  refine ⟨by simp [mkParams], ?_, ?_, by simp [mkParams]⟩
  · intro i
    unfold dataOf opOf nodeAt
    rw [hget, hget2]
    cases ps[i]? <;> simp
  · intro i
    unfold gradOf nodeAt
    rw [hget, hget2]
    by_cases hi : i < ps.length
    · rw [if_pos hi]
      rw [List.getElem?_eq_getElem hi]
      simp
    · rw [if_neg hi]
      rw [List.getElem?_eq_none (by omega : ps.length ≤ i)]
      rfl

/-- C8: calling `zero_grad()` on the parameters and then `backward()` on a
graph (an expression rebuilt over parameter leaves carrying dirty gradients
from earlier passes) produces exactly the same gradients — indeed the same
graph state — as `backward()` on a freshly constructed, structurally
identical graph whose parameters start with zero gradients. -/
theorem claim_C8_zero_grad (ps : List (ℚ × ℚ)) (steps : List BStep) (t x : Nat) :
    gradOf (backward (zeroGradIds (applySteps (mkParams ps) steps)
      (List.range ps.length)) t) x =
    gradOf (backward (applySteps (mkParams (ps.map (fun p => (p.1, 0)))) steps) t) x := by
  have hdf := applySteps_dirtyFresh ps.length steps (mkParams ps)
    (mkParams (ps.map (fun p => (p.1, 0)))) (mkParams_dirtyFresh ps)
  obtain ⟨hl, hdo, hgr, hn⟩ := hdf
  have hgeq : zeroGradIds (applySteps (mkParams ps) steps) (List.range ps.length) =
      applySteps (mkParams (ps.map (fun p => (p.1, 0)))) steps := by
    apply graph_ext
    · rw [length_zeroGradIds]
      exact hl
    · intro i hi
      rw [length_zeroGradIds] at hi
      apply node_eq
      · show dataOf _ i = dataOf _ i
        rw [dataOf_zeroGradIds, (hdo i).1]
      · show gradOf _ i = gradOf _ i
        rw [gradOf_zeroGradIds, hgr i]
        simp only [List.mem_range]
      · show opOf _ i = opOf _ i
        rw [opOf_zeroGradIds, (hdo i).2]
  rw [hgeq]

/-! ### The neural-network consumer (`src/nn.rs`) -/

/-- `Neuron`: weight node indices, bias node index, nonlinearity flag. -/
structure NeuronM where
  w : List Nat
  b : Nat
  nonlin : Bool

/-- `Layer`: a list of neurons. -/
structure LayerM where
  neurons : List NeuronM

/-- `MLP`: the layer-size sequence and the layers. -/
structure MLPM where
  sz : List Nat
  layers : List LayerM

/-- `Neuron::new`: append `nin` weight leaves drawn from the injected
generator `rng` (read at successive counter positions, modelling the
process-wide random source) and one bias leaf with data 0. -/
def mkNeuron (g : Graph) (rng : Nat → ℚ) (ctr nin : Nat) (nonlin : Bool) :
    Graph × NeuronM × Nat :=
  let g1 := g ++ (List.range nin).map (fun j => (⟨rng (ctr + j), 0, .leaf⟩ : Node))
  ((mkLeaf g1 0).1,
    ⟨(List.range nin).map (fun j => g.length + j), g1.length, nonlin⟩,
    ctr + nin)

/-- `Layer::new`: `nout` independent neurons over the same input arity. -/
def mkLayer (g : Graph) (rng : Nat → ℚ) (ctr nin nout : Nat) (nonlin : Bool) :
    Graph × LayerM × Nat :=
  let r := (List.range nout).foldl
    (fun (acc : Graph × List NeuronM × Nat) _ =>
      let p := mkNeuron acc.1 rng acc.2.2 nin nonlin
      (p.1, acc.2.1 ++ [p.2.1], p.2.2))
    (g, [], ctr)
  (r.1, ⟨r.2.1⟩, r.2.2)

/-- `MLP::new`: `sz = [nin] ++ nouts`; layer `i` maps `sz[i]` to `sz[i+1]`
and is nonlinear except for the last layer. -/
def mkMLP (g : Graph) (rng : Nat → ℚ) (ctr nin : Nat) (nouts : List Nat) :
    Graph × MLPM × Nat :=
  let sz := nin :: nouts
  let r := (List.range nouts.length).foldl
    (fun (acc : Graph × List LayerM × Nat) i =>
      let p := mkLayer acc.1 rng acc.2.2 (sz.getD i 0) (sz.getD (i + 1) 0)
        (i ≠ nouts.length - 1)
      (p.1, acc.2.1 ++ [p.2.1], p.2.2))
    (g, [], ctr)
  (r.1, ⟨sz, r.2.1⟩, r.2.2)

/-- `Neuron::parameters`: the weights in index order, then the bias. -/
def neuronParams (n : NeuronM) : List Nat := n.w ++ [n.b]

/-- `Layer::parameters`: neuron parameter lists concatenated in neuron order. -/
def layerParams (l : LayerM) : List Nat := l.neurons.flatMap neuronParams

/-- `MLP::parameters`: layer parameter lists concatenated in layer order. -/
def mlpParams (m : MLPM) : List Nat := m.layers.flatMap layerParams

/-- `Neuron::call`: fold `acc = acc + w_i * x_i` over the elementwise `zip`
of weights and inputs starting from a fresh zero leaf, add the bias, apply
relu when nonlinear.  `zip` truncates to the shorter list, so evaluation is
total for inputs of any length. -/
def neuronCall (g : Graph) (n : NeuronM) (x : List Nat) : Graph × Nat :=
  let acc := (n.w.zip x).foldl
    (fun (s : Graph × Nat) ab =>
      addOp (mulOp s.1 ab.1 ab.2).1 s.2 (mulOp s.1 ab.1 ab.2).2)
    (mkLeaf g 0)
  let withB := addOp acc.1 acc.2 n.b
  if n.nonlin then reluOp withB.1 withB.2 else withB

set_option maxHeartbeats 1600000 in
/-- C9: for the network `NetworkUnit(8, [4,2])`, irrespective of the injected
random generator, `parameters()` returns exactly 46 nodes
(`(8*4+4) + (4*2+2)`) in the stable deterministic order
weights-then-bias per neuron, neurons in layer order, layers in network order
(which here is exactly the creation order `0..45`), and `zero_grad()` resets
all 46 of those nodes' gradients to 0. -/
theorem claim_C9_mlp_params (rng : Nat → ℚ) :
    (mlpParams (mkMLP [] rng 0 8 [4, 2]).2.1).length = 46 ∧
    mlpParams (mkMLP [] rng 0 8 [4, 2]).2.1 =
      (mkMLP [] rng 0 8 [4, 2]).2.1.layers.flatMap
        (fun l => l.neurons.flatMap (fun n => n.w ++ [n.b])) ∧
    mlpParams (mkMLP [] rng 0 8 [4, 2]).2.1 = List.range 46 ∧
    ∀ i ∈ mlpParams (mkMLP [] rng 0 8 [4, 2]).2.1,
      gradOf (zeroGradIds (mkMLP [] rng 0 8 [4, 2]).1
        (mlpParams (mkMLP [] rng 0 8 [4, 2]).2.1)) i = 0 := by
  refine ⟨rfl, rfl, rfl, ?_⟩
  intro i hi
  rw [gradOf_zeroGradIds, if_pos hi]

/-- Forward value of a relu node: `max(input, 0)`. -/
theorem reluOp_data (g : Graph) (a : Nat) :
    dataOf (reluOp g a).1 (reluOp g a).2 = max (dataOf g a) 0 := by
  show (nodeAt (g ++ [⟨if 0 ≤ dataOf g a then dataOf g a else 0, 0, .relu a⟩])
    g.length).data = _
  rw [nodeAt_append_new]
  rcases le_or_lt 0 (dataOf g a) with h0 | h0
  · simp [h0, max_eq_left h0]
  · simp [not_le.mpr h0, max_eq_right (le_of_lt h0)]

/-- The weight-input accumulation fold of `Neuron::call`: its result node's
data is the start accumulator's data plus the sum of the pairwise products,
and it only appends nodes (all pre-existing data survives). -/
theorem neuron_fold_data (l : List (Nat × Nat)) :
    ∀ (h : Graph) (acc : Nat), acc < h.length →
      (∀ ab ∈ l, ab.1 < h.length ∧ ab.2 < h.length) →
      dataOf (l.foldl (fun (s : Graph × Nat) ab =>
          addOp (mulOp s.1 ab.1 ab.2).1 s.2 (mulOp s.1 ab.1 ab.2).2) (h, acc)).1
        (l.foldl (fun (s : Graph × Nat) ab =>
          addOp (mulOp s.1 ab.1 ab.2).1 s.2 (mulOp s.1 ab.1 ab.2).2) (h, acc)).2 =
        dataOf h acc + (l.map (fun ab => dataOf h ab.1 * dataOf h ab.2)).sum ∧
      (∀ i, i < h.length →
        dataOf (l.foldl (fun (s : Graph × Nat) ab =>
          addOp (mulOp s.1 ab.1 ab.2).1 s.2 (mulOp s.1 ab.1 ab.2).2) (h, acc)).1 i =
          dataOf h i) ∧
      h.length ≤ (l.foldl (fun (s : Graph × Nat) ab =>
          addOp (mulOp s.1 ab.1 ab.2).1 s.2 (mulOp s.1 ab.1 ab.2).2) (h, acc)).1.length ∧
      (l.foldl (fun (s : Graph × Nat) ab =>
          addOp (mulOp s.1 ab.1 ab.2).1 s.2 (mulOp s.1 ab.1 ab.2).2) (h, acc)).2 <
        (l.foldl (fun (s : Graph × Nat) ab =>
          addOp (mulOp s.1 ab.1 ab.2).1 s.2 (mulOp s.1 ab.1 ab.2).2) (h, acc)).1.length := by
  induction l with
  | nil =>
    intro h acc hacc _
    exact ⟨by simp, fun i _ => rfl, le_refl _, hacc⟩
  | cons ab l ih =>
    intro h acc hacc hl
    obtain ⟨ha, hb⟩ := hl ab (List.mem_cons_self ab l)
    rw [List.foldl_cons]
    have hstep : addOp (mulOp h ab.1 ab.2).1 acc (mulOp h ab.1 ab.2).2 =
        ((h ++ [⟨dataOf h ab.1 * dataOf h ab.2, 0, .mul ab.1 ab.2⟩]) ++
          [⟨dataOf (h ++ [⟨dataOf h ab.1 * dataOf h ab.2, 0, .mul ab.1 ab.2⟩]) acc +
              dataOf (h ++ [⟨dataOf h ab.1 * dataOf h ab.2, 0, .mul ab.1 ab.2⟩]) h.length,
            0, .add acc h.length⟩],
          (h ++ [(⟨dataOf h ab.1 * dataOf h ab.2, 0, .mul ab.1 ab.2⟩ : Node)]).length) := rfl
    rw [hstep]
    have hlen1 : (h ++ [(⟨dataOf h ab.1 * dataOf h ab.2, 0, .mul ab.1 ab.2⟩ : Node)]).length
        = h.length + 1 := by simp
    have hlen2 : ((h ++ [(⟨dataOf h ab.1 * dataOf h ab.2, 0, .mul ab.1 ab.2⟩ : Node)]) ++
        [(⟨dataOf (h ++ [⟨dataOf h ab.1 * dataOf h ab.2, 0, .mul ab.1 ab.2⟩]) acc +
            dataOf (h ++ [⟨dataOf h ab.1 * dataOf h ab.2, 0, .mul ab.1 ab.2⟩]) h.length,
          0, .add acc h.length⟩ : Node)]).length = h.length + 2 := by simp
    obtain ⟨ihmain, ihpres, ihlen, ihacc⟩ := ih
      ((h ++ [(⟨dataOf h ab.1 * dataOf h ab.2, 0, .mul ab.1 ab.2⟩ : Node)]) ++
        [(⟨dataOf (h ++ [⟨dataOf h ab.1 * dataOf h ab.2, 0, .mul ab.1 ab.2⟩]) acc +
            dataOf (h ++ [⟨dataOf h ab.1 * dataOf h ab.2, 0, .mul ab.1 ab.2⟩]) h.length,
          0, .add acc h.length⟩ : Node)])
      ((h ++ [(⟨dataOf h ab.1 * dataOf h ab.2, 0, .mul ab.1 ab.2⟩ : Node)]).length)
      (by rw [hlen2, hlen1]; omega)
      (by
        intro ab' hab'
        obtain ⟨h1, h2⟩ := hl ab' (List.mem_cons_of_mem ab hab')
        rw [hlen2]
        omega)
    refine ⟨?_, ?_, ?_, ihacc⟩
    · rw [ihmain]
      have hd_acc : dataOf ((h ++ [⟨dataOf h ab.1 * dataOf h ab.2, 0, .mul ab.1 ab.2⟩]) ++
          [⟨dataOf (h ++ [⟨dataOf h ab.1 * dataOf h ab.2, 0, .mul ab.1 ab.2⟩]) acc +
              dataOf (h ++ [⟨dataOf h ab.1 * dataOf h ab.2, 0, .mul ab.1 ab.2⟩]) h.length,
            0, .add acc h.length⟩])
          (h ++ [(⟨dataOf h ab.1 * dataOf h ab.2, 0, .mul ab.1 ab.2⟩ : Node)]).length =
          dataOf h acc + dataOf h ab.1 * dataOf h ab.2 := by
        rw [dataOf_append_new, dataOf_append_old _ _ acc hacc, dataOf_append_new]
      rw [hd_acc]
      have hmapcong : ∀ ab' ∈ l,
          dataOf ((h ++ [⟨dataOf h ab.1 * dataOf h ab.2, 0, .mul ab.1 ab.2⟩]) ++
            [⟨dataOf (h ++ [⟨dataOf h ab.1 * dataOf h ab.2, 0, .mul ab.1 ab.2⟩]) acc +
                dataOf (h ++ [⟨dataOf h ab.1 * dataOf h ab.2, 0, .mul ab.1 ab.2⟩]) h.length,
              0, .add acc h.length⟩]) ab'.1 *
          dataOf ((h ++ [⟨dataOf h ab.1 * dataOf h ab.2, 0, .mul ab.1 ab.2⟩]) ++
            [⟨dataOf (h ++ [⟨dataOf h ab.1 * dataOf h ab.2, 0, .mul ab.1 ab.2⟩]) acc +
                dataOf (h ++ [⟨dataOf h ab.1 * dataOf h ab.2, 0, .mul ab.1 ab.2⟩]) h.length,
              0, .add acc h.length⟩]) ab'.2 =
          dataOf h ab'.1 * dataOf h ab'.2 := by
        intro ab' hab'
        obtain ⟨h1, h2⟩ := hl ab' (List.mem_cons_of_mem ab hab')
        rw [dataOf_append_old _ _ ab'.1 (by rw [hlen1]; omega),
          dataOf_append_old _ _ ab'.1 h1,
          dataOf_append_old _ _ ab'.2 (by rw [hlen1]; omega),
          dataOf_append_old _ _ ab'.2 h2]
      rw [List.map_congr_left hmapcong, List.map_cons, List.sum_cons]
      ring
    · intro i hi
      rw [ihpres i (by rw [hlen2]; omega),
        dataOf_append_old _ _ i (by rw [hlen1]; omega), dataOf_append_old _ _ i hi]
    · have h3 := ihlen
      rw [hlen2] at h3
      omega

theorem mkLeaf_data_old (g : Graph) (q : ℚ) (i : Nat) (hi : i < g.length) :
    dataOf (mkLeaf g q).1 i = dataOf g i := dataOf_append_old g _ i hi

theorem mkLeaf_data_new (g : Graph) (q : ℚ) :
    dataOf (mkLeaf g q).1 (mkLeaf g q).2 = q := dataOf_append_new g _

theorem addOp_data (g : Graph) (a b : Nat) :
    dataOf (addOp g a b).1 (addOp g a b).2 = dataOf g a + dataOf g b :=
  dataOf_append_new g _

/-- C10: `Neuron::call` is total for an input vector of any length: the
weight-input products range over the elementwise `zip` pairing, which
truncates to the shorter of the two lists (extra weights or extra inputs are
silently ignored), the bias is still added, and relu is still applied when
the neuron is nonlinear.  The produced node's forward value is exactly that
truncated dot product plus bias (relu-clamped when nonlinear); no error
value exists anywhere in the model, mirroring the panic-free Rust code. -/
theorem claim_C10_neuron_total (g : Graph) (n : NeuronM) (x : List Nat)
    (hw : ∀ i ∈ n.w, i < g.length) (hx : ∀ i ∈ x, i < g.length) (hb : n.b < g.length) :
    dataOf (neuronCall g n x).1 (neuronCall g n x).2 =
      if n.nonlin
      then max (((n.w.zip x).map (fun ab => dataOf g ab.1 * dataOf g ab.2)).sum +
        dataOf g n.b) 0
      else ((n.w.zip x).map (fun ab => dataOf g ab.1 * dataOf g ab.2)).sum +
        dataOf g n.b := by
  have hlen0 : (mkLeaf g 0).1.length = g.length + 1 := by simp [mkLeaf]
  have hbounds : ∀ ab ∈ n.w.zip x,
      ab.1 < (mkLeaf g 0).1.length ∧ ab.2 < (mkLeaf g 0).1.length := by
    intro ab hab
    obtain ⟨a, b⟩ := ab
    obtain ⟨h1, h2⟩ := List.of_mem_zip hab
    have h3 := hw a h1
    have h4 := hx b h2
    rw [hlen0]
    exact ⟨by omega, by omega⟩
  obtain ⟨hmain, hpres, hmono, haccb⟩ :=
    neuron_fold_data (n.w.zip x) (mkLeaf g 0).1 (mkLeaf g 0).2
      (by rw [hlen0]; show g.length < g.length + 1; omega) hbounds
  have hz : dataOf (mkLeaf g 0).1 (mkLeaf g 0).2 = 0 := mkLeaf_data_new g 0
  have hcong : ∀ ab ∈ n.w.zip x,
      dataOf (mkLeaf g 0).1 ab.1 * dataOf (mkLeaf g 0).1 ab.2 =
        dataOf g ab.1 * dataOf g ab.2 := by
    intro ab hab
    obtain ⟨a, b⟩ := ab
    obtain ⟨h1, h2⟩ := List.of_mem_zip hab
    rw [mkLeaf_data_old g 0 a (hw a h1), mkLeaf_data_old g 0 b (hx b h2)]
  rw [hz, zero_add, List.map_congr_left hcong] at hmain
  have hRb : dataOf ((n.w.zip x).foldl (fun (s : Graph × Nat) ab =>
      addOp (mulOp s.1 ab.1 ab.2).1 s.2 (mulOp s.1 ab.1 ab.2).2) (mkLeaf g 0)).1 n.b =
      dataOf g n.b := by
    rw [hpres n.b (by rw [hlen0]; omega), mkLeaf_data_old g 0 n.b hb]
  have hcall : neuronCall g n x =
      (if n.nonlin
       then reluOp (addOp ((n.w.zip x).foldl (fun (s : Graph × Nat) ab =>
            addOp (mulOp s.1 ab.1 ab.2).1 s.2 (mulOp s.1 ab.1 ab.2).2) (mkLeaf g 0)).1
          ((n.w.zip x).foldl (fun (s : Graph × Nat) ab =>
            addOp (mulOp s.1 ab.1 ab.2).1 s.2 (mulOp s.1 ab.1 ab.2).2) (mkLeaf g 0)).2
          n.b).1
        (addOp ((n.w.zip x).foldl (fun (s : Graph × Nat) ab =>
            addOp (mulOp s.1 ab.1 ab.2).1 s.2 (mulOp s.1 ab.1 ab.2).2) (mkLeaf g 0)).1
          ((n.w.zip x).foldl (fun (s : Graph × Nat) ab =>
            addOp (mulOp s.1 ab.1 ab.2).1 s.2 (mulOp s.1 ab.1 ab.2).2) (mkLeaf g 0)).2
          n.b).2
       else addOp ((n.w.zip x).foldl (fun (s : Graph × Nat) ab =>
            addOp (mulOp s.1 ab.1 ab.2).1 s.2 (mulOp s.1 ab.1 ab.2).2) (mkLeaf g 0)).1
          ((n.w.zip x).foldl (fun (s : Graph × Nat) ab =>
            addOp (mulOp s.1 ab.1 ab.2).1 s.2 (mulOp s.1 ab.1 ab.2).2) (mkLeaf g 0)).2
          n.b) := rfl
  rw [hcall]
  by_cases hnl : n.nonlin
  · rw [if_pos hnl, if_pos hnl, reluOp_data, addOp_data, hmain, hRb]
  · rw [if_neg hnl, if_neg hnl, addOp_data, hmain, hRb]

/-- C10 witness: a neuron with one weight evaluated on the empty input
vector — shorter than the weight list, so the weight is silently ignored
and only the bias (clamped by relu) remains. -/
theorem claim_C10_neuron_total_witness :
    ((∀ i ∈ [0], i < ((mkLeaf (mkLeaf [] 3).1 5).1 : Graph).length) ∧
      (∀ i ∈ ([] : List Nat), i < ((mkLeaf (mkLeaf [] 3).1 5).1 : Graph).length) ∧
      (1 : Nat) < ((mkLeaf (mkLeaf [] 3).1 5).1 : Graph).length) ∧
    dataOf (neuronCall (mkLeaf (mkLeaf [] 3).1 5).1 ⟨[0], 1, true⟩ []).1
        (neuronCall (mkLeaf (mkLeaf [] 3).1 5).1 ⟨[0], 1, true⟩ []).2 =
      (if (true : Bool)
       then max ((([0].zip ([] : List Nat)).map
          (fun ab => dataOf (mkLeaf (mkLeaf [] 3).1 5).1 ab.1 *
            dataOf (mkLeaf (mkLeaf [] 3).1 5).1 ab.2)).sum +
          dataOf (mkLeaf (mkLeaf [] 3).1 5).1 1) 0
       else (([0].zip ([] : List Nat)).map
          (fun ab => dataOf (mkLeaf (mkLeaf [] 3).1 5).1 ab.1 *
            dataOf (mkLeaf (mkLeaf [] 3).1 5).1 ab.2)).sum +
          dataOf (mkLeaf (mkLeaf [] 3).1 5).1 1) :=
  ⟨⟨by decide, by decide, by decide⟩,
    claim_C10_neuron_total (mkLeaf (mkLeaf [] 3).1 5).1 ⟨[0], 1, true⟩ []
      (by decide) (by decide) (by decide)⟩

end Smolgrad
